import Mathlib

/-!
# Weak Factor Recognizer with Q-grams (`src/owfr7.c`)

A shallow embedding of `preprocessing` and `search` from `src/owfr7.c`, and
theorems about them.

Modelling conventions.

* `unsigned char *` arguments are buffers `Int → UInt8`: the memory seen from
  the pointer.  A text of length `n` is the restriction of the buffer to
  `[0, n)`; what lies outside is arbitrary, so a theorem that holds for every
  buffer says that the result does not depend on bytes outside the text.  A
  buffer is a total function, so a read outside `[0, n)` does not show in the
  value of `search`; it shows in `searchLog`, the list of the array elements
  the code touches, and the theorems on reads past the text are about that
  list.
* In `scanLoop`, `verifyLoop`, `searchStep`, `searchLoop` and `search` the index
  variables `i`, `j`, `k`, `m`, `n`, `count` are mathematical integers (`Int`).
  `scanLoop32`, `verifyLoop32`, `searchStep32` and `searchLoop32` repeat the
  loops with every operation on an `int` reduced to 32 bits.  The two agree
  when `n + plen ≤ 2147483647` (`searchLoop32_eq`, `search_within_int_range`);
  outside that range `j += mq` can overflow.
* The hash accumulators `v` and `h` do overflow on ordinary inputs.  They are
  kept as 32-bit two-s-complement bit patterns, natural numbers below `2^32`,
  every update being reduced by `wrap32`.
* The filter `int F[ASIZE]` is a function `Nat → Nat` from word index to the
  bit pattern of the word.  `search` declares `F` without initialising it, so
  the embedding of `search` takes the initial contents as an argument.
* Each loop is a structurally recursive function on a fuel argument and keeps
  the loop condition of the source; the callers pass a fuel computed from the
  loop bounds, and lemmas below show that this fuel is never exhausted.
* The timing markers `BEGIN_PREPROCESSING`, `END_PREPROCESSING`,
  `BEGIN_SEARCHING` and `END_SEARCHING` have no effect on the computation and
  are left out.  `preprocessing` has no `return` statement and its caller
  ignores its value, so the embedding returns the table it leaves in `F`.
-/

namespace Owfr7

/-! ## Data model -/

/-- A byte buffer: the memory seen from an `unsigned char *`. -/
abbrev Buf := Int → UInt8

/-- The filter table `int F[ASIZE]`: word index to 32-bit pattern. -/
abbrev Table := Nat → Nat

/-- The buffer holding the bytes of a list from index `0` on (zero elsewhere). -/
def bufOf (l : List UInt8) : Buf := fun i => if 0 ≤ i then l.getD i.toNat 0 else 0

/-- `#define Q 7` -/
def Q : Int := 7

/-- `#define ALPHA 12` -/
def ALPHA : Nat := 12

/-- `#define ASIZE (1 << (ALPHA))` -/
def ASIZE : Nat := 1 <<< ALPHA

/-- `#define MASK ((ASIZE) - 1)` -/
def MASK : Nat := ASIZE - 1

/-- Modelled from the spec: the macro `MAX` is defined in `include/define.h`, which
is not among the sources; section 4.1 of the spec reads its use in `preprocessing` as
`stop = max(0, i - factLen + 1)`. -/
def MAX (a b : Int) : Int := if a > b then a else b

/-- Reduction of an `int` value to its 32-bit pattern. -/
def wrap32 (v : Nat) : Nat := v % 2 ^ 32

/-- `#define HASH(y, j)`: the Q-gram hash of the seven bytes `y[j-6 .. j]`. -/
def HASH (y : Buf) (j : Int) : Nat :=
  ((y j).toNat <<< 12) + ((y (j - 1)).toNat <<< 10) + ((y (j - 2)).toNat <<< 8)
    + ((y (j - 3)).toNat <<< 6) + ((y (j - 4)).toNat <<< 4) + ((y (j - 5)).toNat <<< 2)
    + (y (j - 6)).toNat

/-- `#define TEST_BIT(F, v) ((F)[((v) >> 5) & MASK] & (1 << ((v) & 0x1F)))` -/
def TEST_BIT (F : Table) (v : Nat) : Nat :=
  F ((v >>> 5) &&& MASK) &&& (1 <<< (v &&& 0x1F))

/-- `#define SET_BIT(F, v) ((F)[((v) >> 5) & MASK] |= (1 << ((v) & 0x1F)))` -/
def SET_BIT (F : Table) (v : Nat) : Table :=
  fun k => if k = (v >>> 5) &&& MASK then F k ||| (1 <<< (v &&& 0x1F)) else F k

/-! ## `preprocessing` -/

/-- The loop `for (v = 0; v < ASIZE; v++) F[v] = 0;`, entered with index `v`. -/
def clearLoop : Nat → Nat → Table → Table
  | 0, _, F => F
  | fuel + 1, v, F =>
    if v < ASIZE then clearLoop fuel (v + 1) (fun k => if k = v then 0 else F k) else F

/-- The loop `for (j = i; j >= stop; j--) { v = (v << 2) + x[j]; SET_BIT(F, v); }`,
entered with the values `j`, `v` and table `F`. -/
def factorLoop (x : Buf) (stop : Int) : Nat → Int → Nat → Table → Table
  | 0, _, _, F => F
  | fuel + 1, j, v, F =>
    if j ≥ stop then
      let v1 := wrap32 ((v <<< 2) + (x j).toNat)
      factorLoop x stop fuel (j - 1) v1 (SET_BIT F v1)
    else F

/-- The loop `for (i = m - 1; i >= Q - 1; i--) { ... }` of `preprocessing`,
entered with index `i`. -/
def endLoop (x : Buf) (fact : Int) : Nat → Int → Table → Table
  | 0, _, F => F
  | fuel + 1, i, F =>
    if i ≥ Q - 1 then
      let stop := MAX 0 (i - fact + 1)
      endLoop x fact fuel (i - 1) (factorLoop x stop (i - stop + 1).toNat i 0 F)
    else F

/-- `int preprocessing(unsigned char *x, int m, int *F)`: the table left in `F`. -/
def preprocessing (x : Buf) (m : Int) (F : Table) : Table :=
  let F1 := clearLoop ASIZE 0 F
  let fact := if m < 16 then m else 16
  endLoop x fact (m - (Q - 1)).toNat (m - 1) F1

/-! ## `search` -/

/-- The loop
`while ((test = TEST_BIT(F, h)) && j > i + Q - 1) { j -= Q; h = (h << 14) + HASH(y, j); }`
entered with the values `j` and `h`; the result is `(j, h, test)` at the exit. -/
def scanLoop (F : Table) (y : Buf) (i : Int) : Nat → Int → Nat → Int × Nat × Nat
  | 0, j, h => (j, h, TEST_BIT F h)
  | fuel + 1, j, h =>
    let test := TEST_BIT F h
    if test ≠ 0 ∧ j > i + Q - 1 then
      let j1 := j - Q
      scanLoop F y i fuel j1 (wrap32 ((h <<< 14) + HASH y j1))
    else (j, h, test)

/-- The loop `while (k < plen && x[k] == y[i + k]) k++;` entered with the value `k`;
the result is `k` at the exit. -/
def verifyLoop (x y : Buf) (plen i : Int) : Nat → Int → Int
  | 0, k => k
  | fuel + 1, k =>
    if k < plen ∧ x k = y (i + k) then verifyLoop x y plen i fuel (k + 1) else k

/-- One pass through the body of `while (j < n) { ... }`: from `(j, count)` at the
top of the body to `(j, count)` after `j += mq`. -/
def searchStep (F : Table) (x : Buf) (plen m mq : Int) (y : Buf) (n : Int)
    (s : Int × Int) : Int × Int :=
  let j := s.1
  let count := s.2
  let h := HASH y j
  let i := j - m + Q
  let r := scanLoop F y i (j - i).toNat j h
  let j := r.1
  let test := r.2.2
  let count :=
    if j = i ∧ test ≠ 0 then
      let i := i - (Q - 1)
      let k := verifyLoop x y plen i plen.toNat 0
      if k = plen ∧ i ≤ n - plen then count + 1 else count
    else count
  (j + mq, count)

/-- The loop `while (j < n) { ... }` entered in state `(j, count)`; the result is
the state at the exit. -/
def searchLoop (F : Table) (x : Buf) (plen m mq : Int) (y : Buf) (n : Int) :
    Nat → Int × Int → Int × Int
  | 0, s => s
  | fuel + 1, s =>
    if s.1 < n then searchLoop F x plen m mq y n fuel (searchStep F x plen m mq y n s)
    else s

/-- The searching phase of `search` (the code between `BEGIN_SEARCHING` and
`END_SEARCHING`) run against the table `F`; the result is the final `count`. -/
def scan (F : Table) (x : Buf) (plen m : Int) (y : Buf) (n : Int) : Int :=
  (searchLoop F x plen m (m - Q + 1) y n (n - (m - 1)).toNat (m - 1, 0)).2

/-- The truncation `if (m % Q != 0) m -= (m % Q);` of `search`. -/
def truncLen (m : Int) : Int := if Int.tmod m Q ≠ 0 then m - Int.tmod m Q else m

/-- `int search(unsigned char *x, int m, unsigned char *y, int n)`; `F0` is the
initial content of the local array `F`. -/
def search (x : Buf) (m : Int) (y : Buf) (n : Int) (F0 : Table) : Int :=
  if m < Q then -1
  else
    let plen := m
    let m := truncLen m
    scan (preprocessing x m F0) x plen m y n

/-! ## Quantities the statements are about -/

/-- The value of `v` in `preprocessing` after `L` passes through the body of the
inner loop started at `j = e` with `v = 0`: the rolling hash of `x[e-L+1 .. e]`,
`v = (v << 2) + x[k]` for `k = e` down to `e - L + 1`. -/
def rollHash (x : Buf) (e : Int) : Nat → Nat
  | 0 => 0
  | L + 1 => wrap32 ((rollHash x e L <<< 2) + (x (e - L)).toNat)

/-- The value of `h` in `search` after `t` passes through the body of the scan
loop for the window with right edge `j`: `h = HASH(y, j)`, then
`h = (h << 14) + HASH(y, j - 7), ...`; the hash of `t + 1` consecutive Q-grams. -/
def scanHash (y : Buf) (j : Int) : Nat → Nat
  | 0 => HASH y j
  | t + 1 => wrap32 ((scanHash y j t <<< 14) + HASH y (j - Q * (t + 1)))

/-- The base-4 value of the bytes `x[a .. a+L)`, `x[a]` being the lowest digit,
without any reduction. -/
def factorHash (x : Buf) (a : Int) : Nat → Nat
  | 0 => 0
  | L + 1 => (x a).toNat + 4 * factorHash x (a + 1) L

/-- Whether `y[p .. p+plen)` equals `x[0 .. plen)` byte for byte. -/
def matchAt (x : Buf) (plen : Int) (y : Buf) (p : Int) : Bool :=
  (List.range plen.toNat).all fun (k : Nat) => y (p + (k : Int)) == x (k : Int)

/-- The number of start positions `p` with `0 ≤ p ≤ n - plen` at which
`y[p .. p+plen)` equals `x[0 .. plen)`. -/
def occurrences (x : Buf) (plen : Int) (y : Buf) (n : Int) : Nat :=
  (List.range (n - plen + 1).toNat).countP fun (p : Nat) => matchAt x plen y (p : Int)

/-- The number of start positions `p < s` with `p + plen ≤ n` at which
`y[p .. p+plen)` equals `x[0 .. plen)`. -/
def occBelow (x : Buf) (plen : Int) (y : Buf) (n : Int) (s : Nat) : Nat :=
  (List.range s).countP fun (p : Nat) => matchAt x plen y (p : Int) && decide ((p : Int) + plen ≤ n)

/-- The text `y[p .. p+plen)` equals the pattern `x[0 .. plen)` byte for byte. -/
def occursAt (x : Buf) (plen : Int) (y : Buf) (p : Int) : Prop :=
  ∀ k : Int, 0 ≤ k → k < plen → y (p + k) = x k

/-! ## Memory accesses

The functions below follow the control flow of the loops above and list, in
program order, the array elements the code touches. -/

/-- One array access: a read of `y[i]`, a read of `x[i]`, or a read or write of
`F[i]`. -/
inductive Access where
  | text (i : Int)
  | pattern (i : Int)
  | table (i : Nat)
  deriving DecidableEq

/-- The reads of `HASH(y, j)`. -/
def hashReads (j : Int) : List Access :=
  [Access.text j, Access.text (j - 1), Access.text (j - 2), Access.text (j - 3),
    Access.text (j - 4), Access.text (j - 5), Access.text (j - 6)]

/-- The accesses of `for (v = 0; v < ASIZE; v++) F[v] = 0;`. -/
def clearLog : Nat → Nat → List Access
  | 0, _ => []
  | fuel + 1, v => if v < ASIZE then Access.table v :: clearLog fuel (v + 1) else []

/-- The accesses of the inner loop of `preprocessing` (see `factorLoop`). -/
def factorLog (x : Buf) (stop : Int) : Nat → Int → Nat → List Access
  | 0, _, _ => []
  | fuel + 1, j, v =>
    if j ≥ stop then
      let v1 := wrap32 ((v <<< 2) + (x j).toNat)
      Access.pattern j :: Access.table ((v1 >>> 5) &&& MASK) :: factorLog x stop fuel (j - 1) v1
    else []

/-- The accesses of the outer loop of `preprocessing` (see `endLoop`). -/
def endLog (x : Buf) (fact : Int) : Nat → Int → List Access
  | 0, _ => []
  | fuel + 1, i =>
    if i ≥ Q - 1 then
      let stop := MAX 0 (i - fact + 1)
      factorLog x stop (i - stop + 1).toNat i 0 ++ endLog x fact fuel (i - 1)
    else []

/-- The accesses of `preprocessing(x, m, F)`. -/
def preprocessingLog (x : Buf) (m : Int) : List Access :=
  let fact := if m < 16 then m else 16
  clearLog ASIZE 0 ++ endLog x fact (m - (Q - 1)).toNat (m - 1)

/-- The accesses of the scan loop (see `scanLoop`): each evaluation of the loop
condition reads the table, each pass through the body evaluates `HASH(y, j)`. -/
def scanLog (F : Table) (y : Buf) (i : Int) : Nat → Int → Nat → List Access
  | 0, _, h => [Access.table ((h >>> 5) &&& MASK)]
  | fuel + 1, j, h =>
    let test := TEST_BIT F h
    Access.table ((h >>> 5) &&& MASK) ::
      (if test ≠ 0 ∧ j > i + Q - 1 then
        let j1 := j - Q
        hashReads j1 ++ scanLog F y i fuel j1 (wrap32 ((h <<< 14) + HASH y j1))
      else [])

/-- The accesses of `while (k < plen && x[k] == y[i + k]) k++;` (see `verifyLoop`):
`x[k]` and `y[i + k]` are read whenever `k < plen` holds. -/
def verifyLog (x y : Buf) (plen i : Int) : Nat → Int → List Access
  | 0, _ => []
  | fuel + 1, k =>
    if k < plen then
      Access.pattern k :: Access.text (i + k) ::
        (if x k = y (i + k) then verifyLog x y plen i fuel (k + 1) else [])
    else []

/-- The accesses of one pass through the body of `while (j < n)` (see `searchStep`). -/
def searchStepLog (F : Table) (x : Buf) (plen m : Int) (y : Buf) (s : Int × Int) :
    List Access :=
  let j := s.1
  let h := HASH y j
  let i := j - m + Q
  let r := scanLoop F y i (j - i).toNat j h
  hashReads j ++ scanLog F y i (j - i).toNat j h ++
    (if r.1 = i ∧ r.2.2 ≠ 0 then verifyLog x y plen (i - (Q - 1)) plen.toNat 0 else [])

/-- The accesses of `while (j < n) { ... }` (see `searchLoop`). -/
def searchLoopLog (F : Table) (x : Buf) (plen m mq : Int) (y : Buf) (n : Int) :
    Nat → Int × Int → List Access
  | 0, _ => []
  | fuel + 1, s =>
    if s.1 < n then
      searchStepLog F x plen m y s ++
        searchLoopLog F x plen m mq y n fuel (searchStep F x plen m mq y n s)
    else []

/-- The accesses of `search(x, m, y, n)`, preprocessing included. -/
def searchLog (x : Buf) (m : Int) (y : Buf) (n : Int) (F0 : Table) : List Access :=
  if m < Q then []
  else
    let plen := m
    let m := truncLen m
    preprocessingLog x m ++
      searchLoopLog (preprocessing x m F0) x plen m (m - Q + 1) y n (n - (m - 1)).toNat (m - 1, 0)

/-- An access stays inside the buffers of `search(x, plen, y, n)` when the text may
be read at the indices `[0, hi)`: the pattern is read inside `[0, plen)` and the
table inside `[0, ASIZE)`. -/
def Access.inRange (plen hi : Int) : Access → Prop
  | Access.text i => 0 ≤ i ∧ i < hi
  | Access.pattern i => 0 ≤ i ∧ i < plen
  | Access.table i => i < ASIZE


/-! ## The hash recurrences in exact arithmetic -/

/-- The recurrence of `rollHash`, `v = (v << 2) + x[k]` for `k = e` down to
`e - L + 1`, in exact arithmetic: no reduction to 32 bits. -/
def rollExact (x : Buf) (e : Int) : Nat → Nat
  | 0 => 0
  | L + 1 => (rollExact x e L <<< 2) + (x (e - L)).toNat

/-- The recurrence of `scanHash`, `h = (h << 14) + HASH(y, j)`, in exact arithmetic:
no reduction to 32 bits. -/
def scanExact (y : Buf) (j : Int) : Nat → Nat
  | 0 => HASH y j
  | t + 1 => (scanExact y j t <<< 14) + HASH y (j - Q * (t + 1))

/-! ## The values inserted by `preprocessing` -/

/-- The values `v` that the inner loop of `preprocessing` passes to `SET_BIT`, in
program order (see `factorLoop`). -/
def factorValues (x : Buf) (stop : Int) : Nat → Int → Nat → List Nat
  | 0, _, _ => []
  | fuel + 1, j, v =>
    if j ≥ stop then
      let v1 := wrap32 ((v <<< 2) + (x j).toNat)
      v1 :: factorValues x stop fuel (j - 1) v1
    else []

/-- The values `v` that the outer loop of `preprocessing` passes to `SET_BIT`, in
program order (see `endLoop`). -/
def endValues (x : Buf) (fact : Int) : Nat → Int → List Nat
  | 0, _ => []
  | fuel + 1, i =>
    if i ≥ Q - 1 then
      let stop := MAX 0 (i - fact + 1)
      factorValues x stop (i - stop + 1).toNat i 0 ++ endValues x fact fuel (i - 1)
    else []

/-- The values `v` that `preprocessing(x, m, F)` passes to `SET_BIT`, in program
order. -/
def preprocessingValues (x : Buf) (m : Int) : List Nat :=
  let fact := if m < 16 then m else 16
  endValues x fact (m - (Q - 1)).toNat (m - 1)

/-- The number of bits set in the table: the number of addresses `a < 2^17` for
which bit `a mod 32` of word `a / 32` is set. -/
def bitCount (F : Table) : Nat :=
  ((Finset.range (2 ^ 17)).filter fun a => (F (a / 32)).testBit (a % 32) = true).card

/-! ## The arguments of `HASH` in the scan -/

/-- The values of `j` at which the body of the scan loop evaluates `HASH(y, j)`, in
program order (see `scanLoop`). -/
def scanArgs (F : Table) (y : Buf) (i : Int) : Nat → Int → Nat → List Int
  | 0, _, _ => []
  | fuel + 1, j, h =>
    if TEST_BIT F h ≠ 0 ∧ j > i + Q - 1 then
      let j1 := j - Q
      j1 :: scanArgs F y i fuel j1 (wrap32 ((h <<< 14) + HASH y j1))
    else []

/-- For each pass through the body of `while (j < n)`, in program order: the value
`j0` of `j` at the top of the body, and the values of `j` at which `HASH(y, j)` is
evaluated during the pass, the first being `j0` itself (see `searchLoop` and
`searchStep`). -/
def searchLoopArgs (F : Table) (x : Buf) (plen m mq : Int) (y : Buf) (n : Int) :
    Nat → Int × Int → List (Int × List Int)
  | 0, _ => []
  | fuel + 1, s =>
    if s.1 < n then
      (s.1, s.1 :: scanArgs F y (s.1 - m + Q) (s.1 - (s.1 - m + Q)).toNat s.1 (HASH y s.1)) ::
        searchLoopArgs F x plen m mq y n fuel (searchStep F x plen m mq y n s)
    else []

/-- The passes through the outer loop of `search(x, m, y, n)` with the arguments of
`HASH` in each (see `searchLoopArgs`). -/
def searchArgs (x : Buf) (m : Int) (y : Buf) (n : Int) (F0 : Table) :
    List (Int × List Int) :=
  if m < Q then []
  else
    let plen := m
    let m := truncLen m
    searchLoopArgs (preprocessing x m F0) x plen m (m - Q + 1) y n (n - (m - 1)).toNat
      (m - 1, 0)

/-! ## The loops of `search` with 32-bit `int` arithmetic

The definitions above keep the index variables as mathematical integers.  The
definitions below repeat the loops of `search` with every operation on an `int`
reduced to the range of `int`, as a two-s-complement machine does on overflow. -/

/-- Reduction of an integer to the range `[-2^31, 2^31)` of `int`. -/
def wrapInt (z : Int) : Int := (z + 2 ^ 31) % 2 ^ 32 - 2 ^ 31

/-- `HASH(y, j)` with its index arithmetic in `int` (see `HASH`). -/
def HASH32 (y : Buf) (j : Int) : Nat :=
  ((y j).toNat <<< 12) + ((y (wrapInt (j - 1))).toNat <<< 10)
    + ((y (wrapInt (j - 2))).toNat <<< 8) + ((y (wrapInt (j - 3))).toNat <<< 6)
    + ((y (wrapInt (j - 4))).toNat <<< 4) + ((y (wrapInt (j - 5))).toNat <<< 2)
    + (y (wrapInt (j - 6))).toNat

/-- The scan loop with `int` arithmetic (see `scanLoop`). -/
def scanLoop32 (F : Table) (y : Buf) (i : Int) : Nat → Int → Nat → Int × Nat × Nat
  | 0, j, h => (j, h, TEST_BIT F h)
  | fuel + 1, j, h =>
    let test := TEST_BIT F h
    if test ≠ 0 ∧ j > wrapInt (wrapInt (i + Q) - 1) then
      let j1 := wrapInt (j - Q)
      scanLoop32 F y i fuel j1 (wrap32 ((h <<< 14) + HASH32 y j1))
    else (j, h, test)

/-- The verification loop with `int` arithmetic (see `verifyLoop`). -/
def verifyLoop32 (x y : Buf) (plen i : Int) : Nat → Int → Int
  | 0, k => k
  | fuel + 1, k =>
    if k < plen ∧ x k = y (wrapInt (i + k)) then
      verifyLoop32 x y plen i fuel (wrapInt (k + 1))
    else k

/-- One pass through the body of `while (j < n) { ... }` with `int` arithmetic (see
`searchStep`). -/
def searchStep32 (F : Table) (x : Buf) (plen m mq : Int) (y : Buf) (n : Int)
    (s : Int × Int) : Int × Int :=
  let j := s.1
  let count := s.2
  let h := HASH32 y j
  let i := wrapInt (wrapInt (j - m) + Q)
  let r := scanLoop32 F y i (j - i).toNat j h
  let j := r.1
  let test := r.2.2
  let count :=
    if j = i ∧ test ≠ 0 then
      let i := wrapInt (i - (Q - 1))
      let k := verifyLoop32 x y plen i plen.toNat 0
      if k = plen ∧ i ≤ wrapInt (n - plen) then wrapInt (count + 1) else count
    else count
  (wrapInt (j + mq), count)

/-- The loop `while (j < n) { ... }` with `int` arithmetic (see `searchLoop`). -/
def searchLoop32 (F : Table) (x : Buf) (plen m mq : Int) (y : Buf) (n : Int) :
    Nat → Int × Int → Int × Int
  | 0, s => s
  | fuel + 1, s =>
    if s.1 < n then searchLoop32 F x plen m mq y n fuel (searchStep32 F x plen m mq y n s)
    else s

/-! ## Bit addressing of the filter -/

theorem MAX_eq (a b : Int) : MAX a b = max a b := by
  unfold MAX
  split <;> omega

theorem and_one_shiftLeft_ne_zero (a b : Nat) : a &&& (1 <<< b) ≠ 0 ↔ a.testBit b = true := by
  rw [Nat.one_shiftLeft, Nat.and_two_pow]
  cases a.testBit b <;> simp

theorem slot_eq (v : Nat) : (v >>> 5) &&& MASK = v / 32 % 4096 := by
  show (v >>> 5) &&& (1 <<< 12 - 1) = v / 32 % 4096
  rw [Nat.one_shiftLeft, Nat.and_pow_two_sub_one_eq_mod, Nat.shiftRight_eq_div_pow]

theorem offset_eq (v : Nat) : v &&& 0x1F = v % 32 :=
  Nat.and_pow_two_sub_one_eq_mod v 5

theorem TEST_BIT_ne_zero_iff (F : Table) (v : Nat) :
    TEST_BIT F v ≠ 0 ↔ (F (v / 32 % 4096)).testBit (v % 32) = true := by
  unfold TEST_BIT
  rw [slot_eq, offset_eq, and_one_shiftLeft_ne_zero]

theorem TEST_BIT_congr (F : Table) {v w : Nat} (h : v % 2 ^ 17 = w % 2 ^ 17) :
    TEST_BIT F v = TEST_BIT F w := by
  unfold TEST_BIT
  rw [slot_eq, offset_eq, slot_eq, offset_eq]
  have h1 : v / 32 % 4096 = w / 32 % 4096 := by omega
  have h2 : v % 32 = w % 32 := by omega
  rw [h1, h2]

theorem TEST_BIT_SET_BIT_iff (F : Table) (v w : Nat) :
    TEST_BIT (SET_BIT F v) w ≠ 0 ↔ (w % 2 ^ 17 = v % 2 ^ 17 ∨ TEST_BIT F w ≠ 0) := by
  rw [TEST_BIT_ne_zero_iff, TEST_BIT_ne_zero_iff]
  unfold SET_BIT
  rw [slot_eq, offset_eq, Nat.one_shiftLeft]
  by_cases hs : w / 32 % 4096 = v / 32 % 4096
  · rw [if_pos hs, Nat.testBit_or, Nat.testBit_two_pow]
    by_cases hb : v % 32 = w % 32
    · have : w % 131072 = v % 131072 := by omega
      simp [hb, this]
    · have : w % 131072 ≠ v % 131072 := by omega
      simp [hb, this]
  · rw [if_neg hs]
    have : w % 131072 ≠ v % 131072 := by omega
    simp [this]

theorem TEST_BIT_SET_BIT_self (F : Table) (v : Nat) : TEST_BIT (SET_BIT F v) v ≠ 0 :=
  (TEST_BIT_SET_BIT_iff F v v).2 (Or.inl rfl)

theorem TEST_BIT_SET_BIT_mono (F : Table) (v w : Nat) (h : TEST_BIT F w ≠ 0) :
    TEST_BIT (SET_BIT F v) w ≠ 0 :=
  (TEST_BIT_SET_BIT_iff F v w).2 (Or.inr h)

theorem wrap32_mod (v : Nat) : wrap32 v % 2 ^ 17 = v % 2 ^ 17 := by
  unfold wrap32; omega


/-! ## Hash algebra -/

theorem factorHash_add (x : Buf) (L1 L2 : Nat) (a : Int) :
    factorHash x a (L1 + L2) = factorHash x a L1 + 4 ^ L1 * factorHash x (a + L1) L2 := by
  induction L1 generalizing a with
  | zero => simp [factorHash]
  | succ L1 ih =>
    have e : L1 + 1 + L2 = (L1 + L2) + 1 := by omega
    rw [e, factorHash, factorHash, ih (a + 1)]
    have e2 : a + 1 + (L1 : Int) = a + ((L1 + 1 : Nat) : Int) := by push_cast; ring
    rw [e2]
    ring

theorem factorHash_congr (x y : Buf) (L : Nat) (a b : Int)
    (h : ∀ k : Int, 0 ≤ k → k < L → y (b + k) = x (a + k)) :
    factorHash y b L = factorHash x a L := by
  induction L generalizing a b with
  | zero => rfl
  | succ L ih =>
    rw [factorHash, factorHash]
    have h0 := h 0 (le_refl 0) (by push_cast; omega)
    simp only [add_zero] at h0
    rw [h0, ih (a + 1) (b + 1)]
    intro k hk0 hk
    have := h (k + 1) (by omega) (by push_cast; omega)
    rw [show b + 1 + k = b + (k + 1) by ring, show a + 1 + k = a + (k + 1) by ring]
    exact this

theorem HASH_eq_factorHash (y : Buf) (j : Int) : HASH y j = factorHash y (j - 6) 7 := by
  simp only [HASH, factorHash, Nat.shiftLeft_eq]
  have e1 : j - 6 + 1 = j - 5 := by ring
  have e2 : j - 5 + 1 = j - 4 := by ring
  have e3 : j - 4 + 1 = j - 3 := by ring
  have e4 : j - 3 + 1 = j - 2 := by ring
  have e5 : j - 2 + 1 = j - 1 := by ring
  have e6 : j - 1 + 1 = j := by ring
  rw [e1, e2, e3, e4, e5, e6]
  ring

theorem rollHash_modEq (x : Buf) (e : Int) (L : Nat) :
    rollHash x e L % 2 ^ 32 = factorHash x (e - L + 1) L % 2 ^ 32 := by
  induction L with
  | zero => rfl
  | succ L ih =>
    have hs : factorHash x (e - ((L + 1 : Nat) : Int) + 1) (L + 1)
        = (x (e - L)).toNat + 4 * factorHash x (e - L + 1) L := by
      rw [factorHash]
      have e1 : e - ((L + 1 : Nat) : Int) + 1 = e - L := by push_cast; ring
      rw [e1]
    rw [hs, rollHash, wrap32, Nat.shiftLeft_eq]
    omega

theorem scanHash_modEq (y : Buf) (j : Int) (t : Nat) :
    scanHash y j t % 2 ^ 32 = factorHash y (j - 7 * t - 6) (7 * (t + 1)) % 2 ^ 32 := by
  induction t with
  | zero =>
    rw [scanHash, HASH_eq_factorHash]
    simp
  | succ t ih =>
    have e : 7 * (t + 1 + 1) = 7 + 7 * (t + 1) := by ring
    rw [e, factorHash_add, scanHash, wrap32, HASH_eq_factorHash, Nat.shiftLeft_eq]
    have e1 : j - Q * ((t : Int) + 1) - 6 = j - 7 * ((t + 1 : Nat) : Int) - 6 := by
      simp only [Q]; push_cast; ring
    have e2 : j - 7 * ((t + 1 : Nat) : Int) - 6 + ((7 : Nat) : Int) = j - 7 * (t : Int) - 6 := by
      push_cast; ring
    rw [e1, e2]
    have h4 : (4 : Nat) ^ 7 = 2 ^ 14 := by norm_num
    rw [h4]
    generalize factorHash y (j - 7 * ((t + 1 : Nat) : Int) - 6) 7 = A
    generalize factorHash y (j - 7 * (t : Int) - 6) (7 * (t + 1)) = B at ih ⊢
    generalize scanHash y j t = S at ih ⊢
    omega

theorem factorHash_mod_of_le (x : Buf) (a : Int) (L : Nat) (h : 9 ≤ L) :
    factorHash x a L % 2 ^ 17 = factorHash x a 9 % 2 ^ 17 := by
  obtain ⟨d, rfl⟩ := Nat.exists_eq_add_of_le h
  rw [factorHash_add]
  have h4 : (4 : Nat) ^ 9 = 2 * 2 ^ 17 := by norm_num
  rw [h4]
  generalize factorHash x a 9 = A
  generalize factorHash x (a + ((9 : Nat) : Int)) d = B
  have : 2 * 2 ^ 17 * B = 2 ^ 17 * (2 * B) := by ring
  rw [this, Nat.add_mul_mod_self_left]


/-! ## The filter built by `preprocessing` -/

theorem factorLoop_mono (x : Buf) (stop : Int) (w : Nat) :
    ∀ (fuel : Nat) (j : Int) (v : Nat) (F : Table),
      TEST_BIT F w ≠ 0 → TEST_BIT (factorLoop x stop fuel j v F) w ≠ 0 := by
  intro fuel
  induction fuel with
  | zero => intro j v F h; exact h
  | succ fuel ih =>
    intro j v F h
    rw [factorLoop]
    split
    · exact ih _ _ _ (TEST_BIT_SET_BIT_mono F _ w h)
    · exact h

theorem endLoop_mono (x : Buf) (fact : Int) (w : Nat) :
    ∀ (fuel : Nat) (i : Int) (F : Table),
      TEST_BIT F w ≠ 0 → TEST_BIT (endLoop x fact fuel i F) w ≠ 0 := by
  intro fuel
  induction fuel with
  | zero => intro i F h; exact h
  | succ fuel ih =>
    intro i F h
    rw [endLoop]
    split
    · exact ih _ _ (factorLoop_mono x _ w _ _ _ F h)
    · exact h

theorem factorLoop_sets (x : Buf) (stop e : Int) (L : Nat) (hstop : stop ≤ e - L + 1) :
    ∀ (fuel c : Nat) (F : Table), c < L → L ≤ c + fuel →
      TEST_BIT (factorLoop x stop fuel (e - c) (rollHash x e c) F) (rollHash x e L) ≠ 0 := by
  intro fuel
  induction fuel with
  | zero => intro c F h1 h2; omega
  | succ fuel ih =>
    intro c F h1 h2
    rw [factorLoop]
    have hc : e - (c : Int) ≥ stop := by omega
    rw [if_pos hc]
    have hv : wrap32 ((rollHash x e c <<< 2) + (x (e - c)).toNat) = rollHash x e (c + 1) := rfl
    have hj : e - (c : Int) - 1 = e - ((c + 1 : Nat) : Int) := by push_cast; ring
    simp only [hv, hj]
    by_cases hL : L = c + 1
    · subst hL
      exact factorLoop_mono x stop _ _ _ _ _ (TEST_BIT_SET_BIT_self F _)
    · exact ih (c + 1) _ (by omega) (by omega)

theorem endLoop_sets (x : Buf) (fact e : Int) (L : Nat) (he : 6 ≤ e) (hL1 : 1 ≤ L)
    (hLf : (L : Int) ≤ fact) (hLe : (L : Int) ≤ e + 1) :
    ∀ (fuel : Nat) (i : Int) (F : Table), e ≤ i → i - e < fuel →
      TEST_BIT (endLoop x fact fuel i F) (rollHash x e L) ≠ 0 := by
  intro fuel
  induction fuel with
  | zero => intro i F h1 h2; omega
  | succ fuel ih =>
    intro i F h1 h2
    rw [endLoop]
    have hc : i ≥ Q - 1 := by simp only [Q]; omega
    rw [if_pos hc]
    simp only [MAX_eq]
    by_cases hei : e = i
    · subst hei
      apply endLoop_mono
      have h := factorLoop_sets x (max 0 (e - fact + 1)) e L (by omega)
        (e - max 0 (e - fact + 1) + 1).toNat 0 F (by omega) (by omega)
      simpa [rollHash] using h
    · exact ih (i - 1) _ (by omega) (by push_cast at h2 ⊢; omega)

theorem preprocessing_sets (x : Buf) (m : Int) (F : Table) (e : Int) (L : Nat)
    (he : 6 ≤ e) (hem : e ≤ m - 1) (hL1 : 1 ≤ L) (hL16 : L ≤ 16) (hLe : (L : Int) ≤ e + 1) :
    TEST_BIT (preprocessing x m F) (rollHash x e L) ≠ 0 := by
  unfold preprocessing
  apply endLoop_sets x _ e L he hL1 _ hLe
  · omega
  · simp only [Q]; omega
  · split <;> omega

theorem filter_complete (x : Buf) (m : Int) (F : Table) (a : Int) (L : Nat)
    (ha : 0 ≤ a) (hL : 7 ≤ L) (haL : a + L ≤ m) :
    TEST_BIT (preprocessing x m F) (factorHash x a L) ≠ 0 := by
  by_cases h16 : L ≤ 16
  · have h := preprocessing_sets x m F (a + L - 1) L (by omega) (by omega) (by omega) h16 (by omega)
    have hr := rollHash_modEq x (a + L - 1) L
    have e1 : a + (L : Int) - 1 - L + 1 = a := by ring
    rw [e1] at hr
    rwa [TEST_BIT_congr (F := preprocessing x m F) (v := rollHash x (a + L - 1) L)
      (w := factorHash x a L) (by omega)] at h
  · have h := preprocessing_sets x m F (a + 15) 16 (by omega) (by omega) (by omega) (by omega)
      (by push_cast; omega)
    have hr := rollHash_modEq x (a + 15) 16
    have e1 : a + 15 - ((16 : Nat) : Int) + 1 = a := by push_cast; ring
    rw [e1] at hr
    have h1 := factorHash_mod_of_le x a 16 (by omega)
    have h2 := factorHash_mod_of_le x a L (by omega)
    rwa [TEST_BIT_congr (F := preprocessing x m F) (v := rollHash x (a + 15) 16)
      (w := factorHash x a L) (by omega)] at h


/-! ## The loops of `search` -/

theorem truncLen_eq (m : Int) (h : 0 ≤ m) : truncLen m = m - m % 7 := by
  unfold truncLen
  rw [Int.tmod_eq_emod h (by decide)]
  simp only [Q]
  split <;> omega

theorem matchAt_iff (x : Buf) (plen : Int) (y : Buf) (p : Int) :
    matchAt x plen y p = true ↔ ∀ k : Int, 0 ≤ k → k < plen → y (p + k) = x k := by
  unfold matchAt
  rw [List.all_eq_true]
  constructor
  · intro h k hk0 hk
    have := h k.toNat (List.mem_range.2 (by omega))
    rw [Int.toNat_of_nonneg hk0] at this
    simpa using this
  · intro h k hk
    have hk' := List.mem_range.1 hk
    simpa using h k (by omega) (by omega)

theorem verifyLoop_spec (x y : Buf) (plen i : Int) :
    ∀ (fuel : Nat) (k : Int), plen - k ≤ fuel →
      (verifyLoop x y plen i fuel k = plen ↔
        (k ≤ plen ∧ ∀ k1 : Int, k ≤ k1 → k1 < plen → x k1 = y (i + k1))) := by
  intro fuel
  induction fuel with
  | zero =>
    intro k hk
    rw [verifyLoop]
    constructor
    · intro h; exact ⟨by omega, fun k1 h1 h2 => by omega⟩
    · intro h; have := h.1; push_cast at hk; omega
  | succ fuel ih =>
    intro k hk
    rw [verifyLoop]
    by_cases hc : k < plen ∧ x k = y (i + k)
    · rw [if_pos hc, ih (k + 1) (by push_cast at hk ⊢; omega)]
      constructor
      · rintro ⟨h1, h2⟩
        refine ⟨by omega, fun k1 h3 h4 => ?_⟩
        by_cases hk1 : k1 = k
        · rw [hk1]; exact hc.2
        · exact h2 k1 (by omega) h4
      · rintro ⟨h1, h2⟩
        exact ⟨by omega, fun k1 h3 h4 => h2 k1 (by omega) h4⟩
    · rw [if_neg hc]
      constructor
      · intro h; exact ⟨by omega, fun k1 h1 h2 => by omega⟩
      · rintro ⟨h1, h2⟩
        by_cases hlt : k < plen
        · exact absurd ⟨hlt, h2 k (le_refl k) hlt⟩ hc
        · omega

theorem scanLoop_spec (F : Table) (y : Buf) (i j0 : Int) :
    ∀ (fuel t c : Nat), j0 - 7 * (t : Int) = i + 7 * (c : Int) → c ≤ fuel →
      ∃ t1 : Nat, t ≤ t1 ∧ t1 ≤ t + c ∧
        scanLoop F y i fuel (j0 - 7 * (t : Int)) (scanHash y j0 t)
          = (j0 - 7 * (t1 : Int), scanHash y j0 t1, TEST_BIT F (scanHash y j0 t1)) ∧
        (TEST_BIT F (scanHash y j0 t1) = 0 ∨ t1 = t + c) := by
  intro fuel
  induction fuel with
  | zero =>
    intro t c h hc
    have hc0 : c = 0 := by omega
    subst hc0
    exact ⟨t, le_refl t, le_refl t, by rw [scanLoop], Or.inr rfl⟩
  | succ fuel ih =>
    intro t c h hc
    rw [scanLoop]
    by_cases hcond : TEST_BIT F (scanHash y j0 t) ≠ 0 ∧ j0 - 7 * (t : Int) > i + Q - 1
    · simp only [if_pos hcond]
      have hQ := hcond.2
      simp only [Q] at hQ
      obtain ⟨c1, rfl⟩ : ∃ c1, c = c1 + 1 := ⟨c - 1, by omega⟩
      have e1 : j0 - 7 * (t : Int) - Q = j0 - 7 * ((t + 1 : Nat) : Int) := by
        simp only [Q]; push_cast; ring
      have e2 : wrap32 ((scanHash y j0 t <<< 14) + HASH y (j0 - 7 * ((t + 1 : Nat) : Int)))
          = scanHash y j0 (t + 1) := by
        rw [scanHash]
        have : j0 - Q * ((t : Int) + 1) = j0 - 7 * ((t + 1 : Nat) : Int) := by
          simp only [Q]; push_cast; ring
        rw [this]
      rw [e1, e2]
      obtain ⟨t1, h1, h2, h3, h4⟩ := ih (t + 1) c1 (by push_cast at h ⊢; omega) (by omega)
      exact ⟨t1, by omega, by omega, h3, by omega⟩
    · simp only [if_neg hcond]
      refine ⟨t, le_refl t, by omega, rfl, ?_⟩
      by_cases ht : TEST_BIT F (scanHash y j0 t) = 0
      · exact Or.inl ht
      · right
        have : ¬ (j0 - 7 * (t : Int) > i + Q - 1) := fun hh => hcond ⟨ht, hh⟩
        simp only [Q] at this
        omega

/-! ## Counting occurrences -/

theorem occBelow_succ (x : Buf) (plen : Int) (y : Buf) (n : Int) (s : Nat) :
    occBelow x plen y n (s + 1) = occBelow x plen y n s +
      (if matchAt x plen y s = true ∧ (s : Int) + plen ≤ n then 1 else 0) := by
  unfold occBelow
  rw [List.range_succ, List.countP_append, List.countP_singleton]
  simp

theorem occBelow_eq_of_no_match (x : Buf) (plen : Int) (y : Buf) (n : Int) (s : Nat) :
    ∀ d : Nat, (∀ p : Nat, s ≤ p → p < s + d →
        ¬ (matchAt x plen y p = true ∧ (p : Int) + plen ≤ n)) →
      occBelow x plen y n (s + d) = occBelow x plen y n s := by
  intro d
  induction d with
  | zero => intro _; rfl
  | succ d ih =>
    intro h
    rw [← Nat.add_assoc, occBelow_succ, if_neg (h (s + d) (by omega) (by omega)),
      ih (fun p h1 h2 => h p h1 (by omega))]
    rfl

theorem occBelow_eq_occurrences (x : Buf) (plen : Int) (y : Buf) (n : Int) (s : Nat)
    (h : n - plen + 1 ≤ s) : occBelow x plen y n s = occurrences x plen y n := by
  have h1 : occBelow x plen y n (n - plen + 1).toNat = occurrences x plen y n := by
    unfold occBelow occurrences
    apply List.countP_congr
    intro p hp
    have := List.mem_range.1 hp
    have hd : (p : Int) + plen ≤ n := by omega
    simp [hd]
  obtain ⟨d, hd⟩ : ∃ d, s = (n - plen + 1).toNat + d := ⟨s - (n - plen + 1).toNat, by omega⟩
  rw [hd, occBelow_eq_of_no_match, h1]
  intro p hp1 hp2 hm
  omega


/-! ## Correctness of the searching phase -/

theorem truncLen_facts (plen : Int) (h : 7 ≤ plen) :
    ∃ c : Nat, truncLen plen = 7 * ((c : Int) + 1) ∧ truncLen plen ≤ plen ∧
      plen < truncLen plen + 7 := by
  rw [truncLen_eq plen (by omega)]
  exact ⟨(plen / 7 - 1).toNat, by omega, by omega, by omega⟩

theorem window_hit (x : Buf) (plen m : Int) (y : Buf) (F0 : Table) (hmp : m ≤ plen)
    (p j : Int) (t : Nat) (hm : matchAt x plen y p = true)
    (h1 : p ≤ j - 7 * (t : Int) - 6) (h2 : j ≤ p + m - 1) :
    TEST_BIT (preprocessing x m F0) (scanHash y j t) ≠ 0 := by
  rw [matchAt_iff] at hm
  have hc : factorHash y (j - 7 * t - 6) (7 * (t + 1))
      = factorHash x (j - 7 * t - 6 - p) (7 * (t + 1)) := by
    apply factorHash_congr
    intro k hk0 hk
    push_cast at hk
    have := hm (j - 7 * t - 6 - p + k) (by omega) (by omega)
    rw [← this]
    congr 1
    ring
  have hf := filter_complete x m F0 (j - 7 * t - 6 - p) (7 * (t + 1)) (by omega) (by omega)
    (by push_cast; omega)
  have hs := scanHash_modEq y j t
  rw [hc] at hs
  rwa [TEST_BIT_congr (F := preprocessing x m F0) (v := scanHash y j t)
    (w := factorHash x (j - 7 * t - 6 - p) (7 * (t + 1))) (by omega)]

theorem searchStep_eq (F : Table) (x : Buf) (plen m : Int) (y : Buf) (n : Int) (c : Nat)
    (hm : m = 7 * ((c : Int) + 1)) (j count : Int) :
    ∃ t1 : Nat, t1 ≤ c ∧ (TEST_BIT F (scanHash y j t1) = 0 ∨ t1 = c) ∧
      searchStep F x plen m (m - Q + 1) y n (j, count) =
        (j - 7 * (t1 : Int) + (m - 6),
          if t1 = c ∧ TEST_BIT F (scanHash y j t1) ≠ 0 then
            if verifyLoop x y plen (j - m + 1) plen.toNat 0 = plen ∧ j - m + 1 ≤ n - plen
            then count + 1 else count
          else count) := by
  have hspec := scanLoop_spec F y (j - m + Q) j (j - (j - m + Q)).toNat 0 c
    (by simp only [Q]; push_cast; omega) (by simp only [Q]; omega)
  obtain ⟨t1, -, h2, h3, h4⟩ := hspec
  have e0 : j - 7 * ((0 : Nat) : Int) = j := by simp
  have e1 : scanHash y j 0 = HASH y j := rfl
  rw [e0, e1] at h3
  refine ⟨t1, by omega, by simpa using h4, ?_⟩
  simp only [searchStep]
  rw [h3]
  simp only
  have e2 : j - m + Q - (Q - 1) = j - m + 1 := by ring
  have e3 : m - Q + 1 = m - 6 := by simp only [Q]; ring
  have e4 : (j - 7 * (t1 : Int) = j - m + Q) ↔ t1 = c := by simp only [Q]; omega
  rw [e2, e3]
  simp only [e4]

theorem searchStep_spec (x : Buf) (plen : Int) (y : Buf) (n : Int) (F0 : Table) (c : Nat)
    (m : Int) (hm : m = 7 * ((c : Int) + 1)) (hmp : m ≤ plen) (j count : Int)
    (hj : m - 1 ≤ j) (hcount : count = occBelow x plen y n (j - m + 1).toNat) :
    let s1 := searchStep (preprocessing x m F0) x plen m (m - Q + 1) y n (j, count)
    j < s1.1 ∧ s1.2 = occBelow x plen y n (s1.1 - m + 1).toNat := by
  obtain ⟨t1, ht1, hor, heq⟩ := searchStep_eq (preprocessing x m F0) x plen m y n c hm j count
  simp only [heq]
  refine ⟨by omega, ?_⟩
  obtain ⟨s, hs⟩ : ∃ s : Nat, j - m + 1 = s := ⟨(j - m + 1).toNat, by omega⟩
  have hs' : (j - m + 1).toNat = s := by omega
  rw [hs'] at hcount
  by_cases htest : TEST_BIT (preprocessing x m F0) (scanHash y j t1) = 0
  · -- filter miss: no occurrence starts in the skipped positions
    have hcond : ¬ (t1 = c ∧ TEST_BIT (preprocessing x m F0) (scanHash y j t1) ≠ 0) :=
      fun h => h.2 htest
    rw [if_neg hcond]
    obtain ⟨d, hd⟩ : ∃ d : Nat, m - 7 * (t1 : Int) - 6 = d := ⟨(m - 7 * t1 - 6).toNat, by omega⟩
    have e : (j - 7 * (t1 : Int) + (m - 6) - m + 1).toNat = s + d := by omega
    rw [e, occBelow_eq_of_no_match, hcount]
    rintro p hp1 hp2 ⟨hmatch, -⟩
    exact window_hit x plen m y F0 hmp p j t1 hmatch (by omega) (by omega) htest
  · -- the whole window passed the filter: verification decides
    have ht1c : t1 = c := by rcases hor with h | h; exact absurd h htest; exact h
    rw [if_pos ⟨ht1c, htest⟩]
    have e : (j - 7 * (t1 : Int) + (m - 6) - m + 1).toNat = s + 1 := by omega
    rw [e, occBelow_succ, hs]
    have hv := verifyLoop_spec x y plen (s : Int) plen.toNat 0 (by omega)
    have hiff : (verifyLoop x y plen (s : Int) plen.toNat 0 = plen ∧ (s : Int) ≤ n - plen) ↔
        (matchAt x plen y s = true ∧ (s : Int) + plen ≤ n) := by
      rw [hv, matchAt_iff]
      constructor
      · rintro ⟨⟨-, h1⟩, h2⟩
        exact ⟨fun k hk0 hk => (h1 k hk0 hk).symm, by omega⟩
      · rintro ⟨h1, h2⟩
        exact ⟨⟨by omega, fun k hk0 hk => (h1 k hk0 hk).symm⟩, by omega⟩
    by_cases hc : matchAt x plen y s = true ∧ (s : Int) + plen ≤ n
    · rw [if_pos (hiff.2 hc), if_pos hc, hcount]; push_cast; ring
    · rw [if_neg (fun h => hc (hiff.1 h)), if_neg hc, hcount]; simp

theorem searchLoop_spec (x : Buf) (plen : Int) (y : Buf) (n : Int) (F0 : Table) (c : Nat)
    (m : Int) (hm : m = 7 * ((c : Int) + 1)) (hmp : m ≤ plen) :
    ∀ (fuel : Nat) (s : Int × Int), m - 1 ≤ s.1 →
      s.2 = occBelow x plen y n (s.1 - m + 1).toNat → n - s.1 ≤ fuel →
      let r := searchLoop (preprocessing x m F0) x plen m (m - Q + 1) y n fuel s
      n ≤ r.1 ∧ r.2 = occurrences x plen y n := by
  intro fuel
  induction fuel with
  | zero =>
    intro s h1 h2 h3
    simp only [searchLoop]
    refine ⟨by push_cast at h3; omega, ?_⟩
    rw [h2, occBelow_eq_occurrences]
    push_cast at h3
    omega
  | succ fuel ih =>
    intro s h1 h2 h3
    simp only [searchLoop]
    by_cases hlt : s.1 < n
    · rw [if_pos hlt]
      obtain ⟨j, count⟩ := s
      have hstep := searchStep_spec x plen y n F0 c m hm hmp j count h1 h2
      simp only at hstep
      exact ih _ (by omega) hstep.2 (by push_cast at h3; omega)
    · rw [if_neg hlt]
      refine ⟨by omega, ?_⟩
      rw [h2, occBelow_eq_occurrences]
      omega

theorem search_eq_occurrences (x : Buf) (plen : Int) (y : Buf) (n : Int) (F0 : Table)
    (h : 7 ≤ plen) : search x plen y n F0 = occurrences x plen y n := by
  obtain ⟨c, hc, hle, -⟩ := truncLen_facts plen h
  unfold search scan
  rw [if_neg (by simp only [Q]; omega)]
  have := searchLoop_spec x plen y n F0 c (truncLen plen) hc hle (n - (truncLen plen - 1)).toNat
    (truncLen plen - 1, 0) (le_refl _) (by simp [occBelow]) (by simp only; omega)
  exact this.2


/-! ## Independence from the initial table -/

theorem ASIZE_eq : ASIZE = 4096 := rfl

theorem clearLoop_apply :
    ∀ (fuel v : Nat) (F : Table) (k : Nat),
      clearLoop fuel v F k = if v ≤ k ∧ k < v + fuel ∧ k < ASIZE then 0 else F k := by
  intro fuel
  induction fuel with
  | zero =>
    intro v F k
    rw [clearLoop, if_neg (by omega)]
  | succ fuel ih =>
    intro v F k
    rw [clearLoop]
    by_cases hv : v < ASIZE
    · rw [if_pos hv, ih]
      by_cases hk : k = v
      · subst hk
        rw [if_neg (by omega)]
        simp [hv]
      · by_cases hc : v ≤ k ∧ k < v + (fuel + 1) ∧ k < ASIZE
        · rw [if_pos (by omega), if_pos hc]
        · rw [if_neg (by omega), if_neg hc, if_neg hk]
    · rw [if_neg hv, if_neg (by omega)]

theorem clearLoop_zero (F : Table) (k : Nat) (hk : k < ASIZE) : clearLoop ASIZE 0 F k = 0 := by
  rw [clearLoop_apply, if_pos (by omega)]

theorem SET_BIT_agree (F1 F2 : Table) (v : Nat) (h : ∀ k, k < ASIZE → F1 k = F2 k) :
    ∀ k, k < ASIZE → SET_BIT F1 v k = SET_BIT F2 v k := by
  intro k hk
  unfold SET_BIT
  rw [h k hk]

theorem factorLoop_agree (x : Buf) (stop : Int) :
    ∀ (fuel : Nat) (j : Int) (v : Nat) (F1 F2 : Table), (∀ k, k < ASIZE → F1 k = F2 k) →
      ∀ k, k < ASIZE → factorLoop x stop fuel j v F1 k = factorLoop x stop fuel j v F2 k := by
  intro fuel
  induction fuel with
  | zero => intro j v F1 F2 h; exact h
  | succ fuel ih =>
    intro j v F1 F2 h
    rw [factorLoop, factorLoop]
    split
    · exact ih _ _ _ _ (SET_BIT_agree F1 F2 _ h)
    · exact h

theorem endLoop_agree (x : Buf) (fact : Int) :
    ∀ (fuel : Nat) (i : Int) (F1 F2 : Table), (∀ k, k < ASIZE → F1 k = F2 k) →
      ∀ k, k < ASIZE → endLoop x fact fuel i F1 k = endLoop x fact fuel i F2 k := by
  intro fuel
  induction fuel with
  | zero => intro i F1 F2 h; exact h
  | succ fuel ih =>
    intro i F1 F2 h
    rw [endLoop, endLoop]
    split
    · exact ih _ _ _ (factorLoop_agree x _ _ _ _ F1 F2 h)
    · exact h

theorem preprocessing_agree (x : Buf) (m : Int) (F1 F2 : Table) :
    ∀ k, k < ASIZE → preprocessing x m F1 k = preprocessing x m F2 k := by
  unfold preprocessing
  apply endLoop_agree
  intro k hk
  rw [clearLoop_zero F1 k hk, clearLoop_zero F2 k hk]

theorem TEST_BIT_agree (F1 F2 : Table) (h : ∀ k, k < ASIZE → F1 k = F2 k) (v : Nat) :
    TEST_BIT F1 v = TEST_BIT F2 v := by
  unfold TEST_BIT
  rw [slot_eq, h _ (by rw [ASIZE_eq]; omega)]

theorem scanLoop_agree (F1 F2 : Table) (h : ∀ k, k < ASIZE → F1 k = F2 k) (y : Buf) (i : Int) :
    ∀ (fuel : Nat) (j : Int) (v : Nat), scanLoop F1 y i fuel j v = scanLoop F2 y i fuel j v := by
  intro fuel
  induction fuel with
  | zero => intro j v; rw [scanLoop, scanLoop, TEST_BIT_agree F1 F2 h]
  | succ fuel ih =>
    intro j v
    rw [scanLoop, scanLoop, TEST_BIT_agree F1 F2 h]
    simp only [ih]

theorem searchStep_agree (F1 F2 : Table) (h : ∀ k, k < ASIZE → F1 k = F2 k) (x : Buf)
    (plen m mq : Int) (y : Buf) (n : Int) (s : Int × Int) :
    searchStep F1 x plen m mq y n s = searchStep F2 x plen m mq y n s := by
  unfold searchStep
  simp only [scanLoop_agree F1 F2 h]

theorem searchLoop_agree (F1 F2 : Table) (h : ∀ k, k < ASIZE → F1 k = F2 k) (x : Buf)
    (plen m mq : Int) (y : Buf) (n : Int) :
    ∀ (fuel : Nat) (s : Int × Int),
      searchLoop F1 x plen m mq y n fuel s = searchLoop F2 x plen m mq y n fuel s := by
  intro fuel
  induction fuel with
  | zero => intro s; rfl
  | succ fuel ih =>
    intro s
    rw [searchLoop, searchLoop, searchStep_agree F1 F2 h, ih]

theorem search_agree (x : Buf) (plen : Int) (y : Buf) (n : Int) (F1 F2 : Table) :
    search x plen y n F1 = search x plen y n F2 := by
  unfold search scan
  split
  · rfl
  · simp only
    rw [searchLoop_agree _ _ (preprocessing_agree x (truncLen plen) F1 F2)]

/-! ## Termination of the search loop -/

theorem searchStep_advance (F : Table) (x : Buf) (plen : Int) (y : Buf) (n : Int)
    (h : 7 ≤ plen) (s : Int × Int) :
    ∃ t : Nat, 7 * (t : Int) ≤ truncLen plen - 7 ∧
      (searchStep F x plen (truncLen plen) (truncLen plen - Q + 1) y n s).1
        = s.1 - 7 * (t : Int) + (truncLen plen - Q + 1) := by
  obtain ⟨c, hc, -, -⟩ := truncLen_facts plen h
  obtain ⟨j, count⟩ := s
  obtain ⟨t1, ht1, -, heq⟩ := searchStep_eq F x plen (truncLen plen) y n c hc j count
  refine ⟨t1, by omega, ?_⟩
  rw [heq]
  simp only [Q]
  ring

theorem searchStep_lt (F : Table) (x : Buf) (plen : Int) (y : Buf) (n : Int)
    (h : 7 ≤ plen) (s : Int × Int) :
    s.1 < (searchStep F x plen (truncLen plen) (truncLen plen - Q + 1) y n s).1 := by
  obtain ⟨t, ht, heq⟩ := searchStep_advance F x plen y n h s
  rw [heq]
  simp only [Q]
  omega

theorem searchLoop_exit (F : Table) (x : Buf) (plen : Int) (y : Buf) (n : Int) (h : 7 ≤ plen) :
    ∀ (fuel : Nat) (s : Int × Int), n - s.1 ≤ fuel →
      n ≤ (searchLoop F x plen (truncLen plen) (truncLen plen - Q + 1) y n fuel s).1 := by
  intro fuel
  induction fuel with
  | zero => intro s hs; rw [searchLoop]; push_cast at hs; omega
  | succ fuel ih =>
    intro s hs
    rw [searchLoop]
    split
    · apply ih
      have := searchStep_lt F x plen y n h s
      push_cast at hs
      omega
    · omega

theorem searchLoop_fuel (F : Table) (x : Buf) (plen : Int) (y : Buf) (n : Int) (h : 7 ≤ plen)
    (d : Nat) :
    ∀ (fuel : Nat) (s : Int × Int), n - s.1 ≤ fuel →
      searchLoop F x plen (truncLen plen) (truncLen plen - Q + 1) y n (fuel + d) s
        = searchLoop F x plen (truncLen plen) (truncLen plen - Q + 1) y n fuel s := by
  intro fuel
  induction fuel with
  | zero =>
    intro s hs
    push_cast at hs
    cases d with
    | zero => rfl
    | succ d =>
      rw [Nat.zero_add, searchLoop, searchLoop, if_neg (by omega)]
  | succ fuel ih =>
    intro s hs
    rw [show fuel + 1 + d = (fuel + d) + 1 by omega, searchLoop, searchLoop]
    split
    · apply ih
      have := searchStep_lt F x plen y n h s
      push_cast at hs
      omega
    · rfl


/-! ## The fuel of the loops is never exhausted -/

theorem clearLoop_fuel (d : Nat) :
    ∀ (fuel v : Nat) (F : Table), ASIZE ≤ v + fuel →
      clearLoop (fuel + d) v F = clearLoop fuel v F := by
  intro fuel
  induction fuel with
  | zero =>
    intro v F h
    cases d with
    | zero => rfl
    | succ d => rw [Nat.zero_add, clearLoop, clearLoop, if_neg (by omega)]
  | succ fuel ih =>
    intro v F h
    rw [show fuel + 1 + d = (fuel + d) + 1 by omega, clearLoop, clearLoop]
    split
    · exact ih _ _ (by omega)
    · rfl

theorem factorLoop_fuel (x : Buf) (stop : Int) (d : Nat) :
    ∀ (fuel : Nat) (j : Int) (v : Nat) (F : Table), j - stop + 1 ≤ fuel →
      factorLoop x stop (fuel + d) j v F = factorLoop x stop fuel j v F := by
  intro fuel
  induction fuel with
  | zero =>
    intro j v F h
    push_cast at h
    cases d with
    | zero => rfl
    | succ d => rw [Nat.zero_add, factorLoop, factorLoop, if_neg (by omega)]
  | succ fuel ih =>
    intro j v F h
    rw [show fuel + 1 + d = (fuel + d) + 1 by omega, factorLoop, factorLoop]
    split
    · exact ih _ _ _ (by push_cast at h; omega)
    · rfl

theorem endLoop_fuel (x : Buf) (fact : Int) (d : Nat) :
    ∀ (fuel : Nat) (i : Int) (F : Table), i - (Q - 1) + 1 ≤ fuel →
      endLoop x fact (fuel + d) i F = endLoop x fact fuel i F := by
  intro fuel
  induction fuel with
  | zero =>
    intro i F h
    push_cast at h
    cases d with
    | zero => rfl
    | succ d => rw [Nat.zero_add, endLoop, endLoop, if_neg (by omega)]
  | succ fuel ih =>
    intro i F h
    rw [show fuel + 1 + d = (fuel + d) + 1 by omega, endLoop, endLoop]
    split
    · exact ih _ _ (by push_cast at h; omega)
    · rfl

theorem scanLoop_fuel (F : Table) (y : Buf) (i : Int) (d : Nat) :
    ∀ (fuel : Nat) (j : Int) (h : Nat), j - i ≤ fuel →
      scanLoop F y i (fuel + d) j h = scanLoop F y i fuel j h := by
  intro fuel
  induction fuel with
  | zero =>
    intro j h hj
    push_cast at hj
    cases d with
    | zero => rfl
    | succ d =>
      rw [Nat.zero_add, scanLoop, scanLoop, if_neg (by simp only [Q]; omega)]
  | succ fuel ih =>
    intro j h hj
    rw [show fuel + 1 + d = (fuel + d) + 1 by omega, scanLoop, scanLoop]
    split
    · exact ih _ _ (by simp only [Q]; push_cast at hj; omega)
    · rfl

theorem verifyLoop_fuel (x y : Buf) (plen i : Int) (d : Nat) :
    ∀ (fuel : Nat) (k : Int), plen - k ≤ fuel →
      verifyLoop x y plen i (fuel + d) k = verifyLoop x y plen i fuel k := by
  intro fuel
  induction fuel with
  | zero =>
    intro k hk
    push_cast at hk
    cases d with
    | zero => rfl
    | succ d => rw [Nat.zero_add, verifyLoop, verifyLoop, if_neg (by omega)]
  | succ fuel ih =>
    intro k hk
    rw [show fuel + 1 + d = (fuel + d) + 1 by omega, verifyLoop, verifyLoop]
    split
    · exact ih _ (by push_cast at hk; omega)
    · rfl

theorem searchLoop_done (F : Table) (x : Buf) (plen m mq : Int) (y : Buf) (n : Int)
    (fuel : Nat) (s : Int × Int) (h : n ≤ s.1) :
    searchLoop F x plen m mq y n fuel s = s := by
  cases fuel with
  | zero => rfl
  | succ fuel => rw [searchLoop, if_neg (by omega)]

/-! ## Bounds of the memory accesses -/

theorem slot_lt (v : Nat) : (v >>> 5) &&& MASK < ASIZE := by
  rw [slot_eq, ASIZE_eq]
  omega

theorem clearLog_inRange (plen hi : Int) :
    ∀ (fuel v : Nat), ∀ a ∈ clearLog fuel v, a.inRange plen hi := by
  intro fuel
  induction fuel with
  | zero => intro v a ha; simp [clearLog] at ha
  | succ fuel ih =>
    intro v a ha
    rw [clearLog] at ha
    split at ha
    · rcases List.mem_cons.1 ha with rfl | h
      · assumption
      · exact ih _ a h
    · simp at ha

theorem factorLog_inRange (x : Buf) (stop plen hi : Int) (hstop : 0 ≤ stop) :
    ∀ (fuel : Nat) (j : Int) (v : Nat), j < plen →
      ∀ a ∈ factorLog x stop fuel j v, a.inRange plen hi := by
  intro fuel
  induction fuel with
  | zero => intro j v _ a ha; simp [factorLog] at ha
  | succ fuel ih =>
    intro j v hj a ha
    rw [factorLog] at ha
    split at ha
    · rcases List.mem_cons.1 ha with rfl | h
      · exact ⟨by omega, hj⟩
      · rcases List.mem_cons.1 h with rfl | h
        · exact slot_lt _
        · exact ih _ _ (by omega) a h
    · simp at ha

theorem endLog_inRange (x : Buf) (fact plen hi : Int) :
    ∀ (fuel : Nat) (i : Int), i < plen → ∀ a ∈ endLog x fact fuel i, a.inRange plen hi := by
  intro fuel
  induction fuel with
  | zero => intro i _ a ha; simp [endLog] at ha
  | succ fuel ih =>
    intro i hi a ha
    rw [endLog] at ha
    split at ha
    · rcases List.mem_append.1 ha with h | h
      · exact factorLog_inRange x _ plen _ (by rw [MAX_eq]; omega) _ _ _ hi a h
      · exact ih _ (by omega) a h
    · simp at ha

theorem preprocessingLog_inRange (x : Buf) (m plen hi : Int) (hm : m ≤ plen) :
    ∀ a ∈ preprocessingLog x m, a.inRange plen hi := by
  intro a ha
  unfold preprocessingLog at ha
  rcases List.mem_append.1 ha with h | h
  · exact clearLog_inRange plen hi _ _ a h
  · exact endLog_inRange x _ plen hi _ _ (by omega) a h

theorem hashReads_inRange (plen hi j : Int) (h6 : 6 ≤ j) (hj : j < hi) :
    ∀ a ∈ hashReads j, a.inRange plen hi := by
  intro a ha
  simp only [hashReads, List.mem_cons, List.mem_singleton, List.not_mem_nil, or_false] at ha
  rcases ha with rfl | rfl | rfl | rfl | rfl | rfl | rfl <;>
    exact ⟨by omega, by omega⟩

theorem scanLog_inRange (F : Table) (y : Buf) (i plen hi : Int) (hi6 : 6 ≤ i) :
    ∀ (fuel : Nat) (j : Int) (h : Nat), j < hi →
      ∀ a ∈ scanLog F y i fuel j h, a.inRange plen hi := by
  intro fuel
  induction fuel with
  | zero =>
    intro j h _ a ha
    rw [scanLog, List.mem_singleton] at ha
    rw [ha]
    exact slot_lt _
  | succ fuel ih =>
    intro j h hj a ha
    rw [scanLog] at ha
    rcases List.mem_cons.1 ha with rfl | h1
    · exact slot_lt _
    · split at h1
      · rename_i hc
        have hQ := hc.2
        simp only [Q] at hQ
        rcases List.mem_append.1 h1 with h2 | h2
        · exact hashReads_inRange plen hi _ (by simp only [Q]; omega) (by simp only [Q]; omega) a h2
        · exact ih _ _ (by simp only [Q]; omega) a h2
      · simp at h1

theorem verifyLog_inRange (x y : Buf) (plen i hi : Int) (hi0 : 0 ≤ i) (hip : i + plen ≤ hi) :
    ∀ (fuel : Nat) (k : Int), 0 ≤ k → ∀ a ∈ verifyLog x y plen i fuel k, a.inRange plen hi := by
  intro fuel
  induction fuel with
  | zero => intro k _ a ha; simp [verifyLog] at ha
  | succ fuel ih =>
    intro k hk a ha
    rw [verifyLog] at ha
    split at ha
    · rcases List.mem_cons.1 ha with rfl | h
      · exact ⟨hk, by assumption⟩
      · rcases List.mem_cons.1 h with rfl | h
        · exact ⟨by omega, by omega⟩
        · split at h
          · exact ih _ (by omega) a h
          · simp at h
    · simp at ha

theorem searchStepLog_inRange (F : Table) (x : Buf) (plen m : Int) (y : Buf) (n : Int)
    (hm : 7 ≤ m) (hmp : m ≤ plen) (s : Int × Int) (hs : m - 1 ≤ s.1) (hsn : s.1 < n) :
    ∀ a ∈ searchStepLog F x plen m y s, a.inRange plen (n + (plen - m)) := by
  intro a ha
  unfold searchStepLog at ha
  simp only at ha
  rcases List.mem_append.1 ha with h | h
  · rcases List.mem_append.1 h with h | h
    · exact hashReads_inRange plen _ _ (by omega) (by omega) a h
    · exact scanLog_inRange F y _ plen _ (by simp only [Q]; omega) _ _ _ (by omega) a h
  · split at h
    · exact verifyLog_inRange x y plen _ _ (by simp only [Q]; omega) (by simp only [Q]; omega)
        _ 0 (le_refl 0) a h
    · simp at h

theorem searchLoopLog_inRange (F : Table) (x : Buf) (plen : Int) (y : Buf) (n : Int)
    (h : 7 ≤ plen) :
    ∀ (fuel : Nat) (s : Int × Int), truncLen plen - 1 ≤ s.1 →
      ∀ a ∈ searchLoopLog F x plen (truncLen plen) (truncLen plen - Q + 1) y n fuel s,
        a.inRange plen (n + (plen - truncLen plen)) := by
  obtain ⟨c, hc, hle, -⟩ := truncLen_facts plen h
  intro fuel
  induction fuel with
  | zero => intro s _ a ha; simp [searchLoopLog] at ha
  | succ fuel ih =>
    intro s hs a ha
    rw [searchLoopLog] at ha
    split at ha
    · rename_i hlt
      rcases List.mem_append.1 ha with h1 | h1
      · exact searchStepLog_inRange F x plen _ y n (by omega) hle s hs hlt a h1
      · have := searchStep_lt F x plen y n h s
        exact ih _ (by omega) a h1
    · simp at ha

/-- Every access of `search` is in range, except that the text may be read up to
`plen - m` bytes past its end, `m` being the truncated pattern length. -/
theorem searchLog_inRange (x : Buf) (plen : Int) (y : Buf) (n : Int) (F0 : Table)
    (h : 7 ≤ plen) :
    ∀ a ∈ searchLog x plen y n F0, a.inRange plen (n + (plen - truncLen plen)) := by
  obtain ⟨c, hc, hle, -⟩ := truncLen_facts plen h
  intro a ha
  unfold searchLog at ha
  rw [if_neg (by simp only [Q]; omega)] at ha
  rcases List.mem_append.1 ha with h1 | h1
  · exact preprocessingLog_inRange x _ plen _ hle a h1
  · exact searchLoopLog_inRange _ x plen y n h _ _ (le_refl _) a h1

/-! ## The searching phase against a table that contains the filter -/

theorem searchStep_count_of_complete (F : Table) (x : Buf) (plen : Int) (y : Buf) (n : Int)
    (c : Nat) (m : Int) (hm : m = 7 * ((c : Int) + 1)) (hmp : m ≤ plen)
    (hF : ∀ (p j : Int) (t : Nat), matchAt x plen y p = true → p ≤ j - 7 * (t : Int) - 6 →
      j ≤ p + m - 1 → TEST_BIT F (scanHash y j t) ≠ 0)
    (j count : Int) (hj : m - 1 ≤ j)
    (hcount : count = occBelow x plen y n (j - m + 1).toNat) :
    let s1 := searchStep F x plen m (m - Q + 1) y n (j, count)
    j < s1.1 ∧ s1.2 = occBelow x plen y n (s1.1 - m + 1).toNat := by
  obtain ⟨t1, ht1, hor, heq⟩ := searchStep_eq F x plen m y n c hm j count
  simp only [heq]
  refine ⟨by omega, ?_⟩
  obtain ⟨s, hs⟩ : ∃ s : Nat, j - m + 1 = s := ⟨(j - m + 1).toNat, by omega⟩
  have hs' : (j - m + 1).toNat = s := by omega
  rw [hs'] at hcount
  by_cases htest : TEST_BIT F (scanHash y j t1) = 0
  · have hcond : ¬ (t1 = c ∧ TEST_BIT F (scanHash y j t1) ≠ 0) := fun h => h.2 htest
    rw [if_neg hcond]
    obtain ⟨d, hd⟩ : ∃ d : Nat, m - 7 * (t1 : Int) - 6 = d := ⟨(m - 7 * t1 - 6).toNat, by omega⟩
    have e : (j - 7 * (t1 : Int) + (m - 6) - m + 1).toNat = s + d := by omega
    rw [e, occBelow_eq_of_no_match, hcount]
    rintro p hp1 hp2 ⟨hmatch, -⟩
    exact hF p j t1 hmatch (by omega) (by omega) htest
  · have ht1c : t1 = c := by rcases hor with h | h; exact absurd h htest; exact h
    rw [if_pos ⟨ht1c, htest⟩]
    have e : (j - 7 * (t1 : Int) + (m - 6) - m + 1).toNat = s + 1 := by omega
    rw [e, occBelow_succ, hs]
    have hv := verifyLoop_spec x y plen (s : Int) plen.toNat 0 (by omega)
    have hiff : (verifyLoop x y plen (s : Int) plen.toNat 0 = plen ∧ (s : Int) ≤ n - plen) ↔
        (matchAt x plen y s = true ∧ (s : Int) + plen ≤ n) := by
      rw [hv, matchAt_iff]
      constructor
      · rintro ⟨⟨-, h1⟩, h2⟩
        exact ⟨fun k hk0 hk => (h1 k hk0 hk).symm, by omega⟩
      · rintro ⟨h1, h2⟩
        exact ⟨⟨by omega, fun k hk0 hk => (h1 k hk0 hk).symm⟩, by omega⟩
    by_cases hc : matchAt x plen y s = true ∧ (s : Int) + plen ≤ n
    · rw [if_pos (hiff.2 hc), if_pos hc, hcount]; push_cast; ring
    · rw [if_neg (fun h => hc (hiff.1 h)), if_neg hc, hcount]; simp

theorem searchLoop_count_of_complete (F : Table) (x : Buf) (plen : Int) (y : Buf) (n : Int)
    (c : Nat) (m : Int) (hm : m = 7 * ((c : Int) + 1)) (hmp : m ≤ plen)
    (hF : ∀ (p j : Int) (t : Nat), matchAt x plen y p = true → p ≤ j - 7 * (t : Int) - 6 →
      j ≤ p + m - 1 → TEST_BIT F (scanHash y j t) ≠ 0) :
    ∀ (fuel : Nat) (s : Int × Int), m - 1 ≤ s.1 →
      s.2 = occBelow x plen y n (s.1 - m + 1).toNat → n - s.1 ≤ fuel →
      (searchLoop F x plen m (m - Q + 1) y n fuel s).2 = occurrences x plen y n := by
  intro fuel
  induction fuel with
  | zero =>
    intro s h1 h2 h3
    simp only [searchLoop]
    rw [h2, occBelow_eq_occurrences]
    push_cast at h3
    omega
  | succ fuel ih =>
    intro s h1 h2 h3
    simp only [searchLoop]
    by_cases hlt : s.1 < n
    · rw [if_pos hlt]
      obtain ⟨j, count⟩ := s
      have hstep := searchStep_count_of_complete F x plen y n c m hm hmp hF j count h1 h2
      simp only at hstep
      exact ih _ (by omega) hstep.2 (by push_cast at h3; omega)
    · rw [if_neg hlt, h2, occBelow_eq_occurrences]
      omega

theorem TEST_BIT_of_superset (F G : Table)
    (h : ∀ k b : Nat, k < ASIZE → b < 32 → (F k).testBit b = true → (G k).testBit b = true)
    (v : Nat) (hv : TEST_BIT F v ≠ 0) : TEST_BIT G v ≠ 0 := by
  rw [TEST_BIT_ne_zero_iff] at hv ⊢
  exact h _ _ (by rw [ASIZE_eq]; omega) (by omega) hv

theorem scan_eq_occurrences_of_superset (x : Buf) (plen : Int) (y : Buf) (n : Int)
    (F0 G : Table) (h : 7 ≤ plen)
    (hG : ∀ k b : Nat, k < ASIZE → b < 32 →
      (preprocessing x (truncLen plen) F0 k).testBit b = true → (G k).testBit b = true) :
    scan G x plen (truncLen plen) y n = occurrences x plen y n := by
  obtain ⟨c, hc, hle, -⟩ := truncLen_facts plen h
  unfold scan
  exact searchLoop_count_of_complete G x plen y n c (truncLen plen) hc hle
    (fun p j t hmatch h1 h2 =>
      TEST_BIT_of_superset _ G hG _ (window_hit x plen _ y F0 hle p j t hmatch h1 h2))
    (n - (truncLen plen - 1)).toNat (truncLen plen - 1, 0) (le_refl _) (by simp [occBelow])
    (by simp only; omega)

theorem TEST_BIT_all_ones (v : Nat) : TEST_BIT (fun _ => 4294967295) v ≠ 0 := by
  rw [TEST_BIT_ne_zero_iff]
  have : (4294967295 : Nat) = 2 ^ 32 - 1 := by norm_num
  rw [this, Nat.testBit_two_pow_sub_one]
  simp
  omega

/-! ## Exact and 32-bit hash values -/

theorem rollExact_eq_factorHash (x : Buf) (e : Int) (L : Nat) :
    rollExact x e L = factorHash x (e - L + 1) L := by
  induction L with
  | zero => rfl
  | succ L ih =>
    have hs : factorHash x (e - ((L + 1 : Nat) : Int) + 1) (L + 1)
        = (x (e - L)).toNat + 4 * factorHash x (e - L + 1) L := by
      rw [factorHash]
      have e1 : e - ((L + 1 : Nat) : Int) + 1 = e - L := by push_cast; ring
      rw [e1]
    rw [hs, rollExact, ih, Nat.shiftLeft_eq]
    ring

theorem scanExact_eq_factorHash (y : Buf) (j : Int) (t : Nat) :
    scanExact y j t = factorHash y (j - 7 * t - 6) (7 * (t + 1)) := by
  induction t with
  | zero =>
    rw [scanExact, HASH_eq_factorHash]
    simp
  | succ t ih =>
    have e : 7 * (t + 1 + 1) = 7 + 7 * (t + 1) := by ring
    rw [e, factorHash_add, scanExact, HASH_eq_factorHash, Nat.shiftLeft_eq, ih]
    have e1 : j - Q * ((t : Int) + 1) - 6 = j - 7 * ((t + 1 : Nat) : Int) - 6 := by
      simp only [Q]; push_cast; ring
    have e2 : j - 7 * ((t + 1 : Nat) : Int) - 6 + ((7 : Nat) : Int) = j - 7 * (t : Int) - 6 := by
      push_cast; ring
    rw [e1, e2]
    have h4 : (4 : Nat) ^ 7 = 2 ^ 14 := by norm_num
    rw [h4]
    ring

theorem rollHash_mod_exact (x : Buf) (e : Int) (L : Nat) :
    rollHash x e L % 2 ^ 32 = rollExact x e L % 2 ^ 32 := by
  rw [rollHash_modEq, rollExact_eq_factorHash]

theorem scanHash_mod_exact (y : Buf) (j : Int) (t : Nat) :
    scanHash y j t % 2 ^ 32 = scanExact y j t % 2 ^ 32 := by
  rw [scanHash_modEq, scanExact_eq_factorHash]

theorem rollHash_lt (x : Buf) (e : Int) (L : Nat) : rollHash x e L < 2 ^ 32 := by
  cases L with
  | zero => simp [rollHash]
  | succ L => rw [rollHash, wrap32]; exact Nat.mod_lt _ (by norm_num)

theorem factorHash_bound (x : Buf) (a : Int) (L : Nat) :
    3 * factorHash x a L + 255 ≤ 255 * 4 ^ L := by
  induction L generalizing a with
  | zero => simp [factorHash]
  | succ L ih =>
    rw [factorHash, pow_succ]
    have hb : (x a).toNat < 256 := UInt8.toNat_lt_size (x a)
    have := ih (a + 1)
    omega

theorem SET_BIT_congr (F : Table) {v w : Nat} (h : v % 2 ^ 17 = w % 2 ^ 17) :
    SET_BIT F v = SET_BIT F w := by
  unfold SET_BIT
  rw [slot_eq, offset_eq, slot_eq, offset_eq]
  have h1 : v / 32 % 4096 = w / 32 % 4096 := by omega
  have h2 : v % 32 = w % 32 := by omega
  rw [h1, h2]

theorem mod17_of_mod32 {v w : Nat} (h : v % 2 ^ 32 = w % 2 ^ 32) : v % 2 ^ 17 = w % 2 ^ 17 := by
  omega

/-! ## The scan of one window -/

theorem scanLoop_spec_hits (F : Table) (y : Buf) (i j0 : Int) :
    ∀ (fuel t c : Nat), j0 - 7 * (t : Int) = i + 7 * (c : Int) → c ≤ fuel →
      ∃ t1 : Nat, t ≤ t1 ∧ t1 ≤ t + c ∧
        scanLoop F y i fuel (j0 - 7 * (t : Int)) (scanHash y j0 t)
          = (j0 - 7 * (t1 : Int), scanHash y j0 t1, TEST_BIT F (scanHash y j0 t1)) ∧
        (TEST_BIT F (scanHash y j0 t1) = 0 ∨ t1 = t + c) ∧
        ∀ u : Nat, t ≤ u → u < t1 → TEST_BIT F (scanHash y j0 u) ≠ 0 := by
  intro fuel
  induction fuel with
  | zero =>
    intro t c h hc
    have hc0 : c = 0 := by omega
    subst hc0
    exact ⟨t, le_refl t, le_refl t, by rw [scanLoop], Or.inr rfl, fun u h1 h2 => by omega⟩
  | succ fuel ih =>
    intro t c h hc
    rw [scanLoop]
    by_cases hcond : TEST_BIT F (scanHash y j0 t) ≠ 0 ∧ j0 - 7 * (t : Int) > i + Q - 1
    · simp only [if_pos hcond]
      have hQ := hcond.2
      simp only [Q] at hQ
      obtain ⟨c1, rfl⟩ : ∃ c1, c = c1 + 1 := ⟨c - 1, by omega⟩
      have e1 : j0 - 7 * (t : Int) - Q = j0 - 7 * ((t + 1 : Nat) : Int) := by
        simp only [Q]; push_cast; ring
      have e2 : wrap32 ((scanHash y j0 t <<< 14) + HASH y (j0 - 7 * ((t + 1 : Nat) : Int)))
          = scanHash y j0 (t + 1) := by
        rw [scanHash]
        have : j0 - Q * ((t : Int) + 1) = j0 - 7 * ((t + 1 : Nat) : Int) := by
          simp only [Q]; push_cast; ring
        rw [this]
      rw [e1, e2]
      obtain ⟨t1, h1, h2, h3, h4, h5⟩ := ih (t + 1) c1 (by push_cast at h ⊢; omega) (by omega)
      refine ⟨t1, by omega, by omega, h3, by omega, fun u hu1 hu2 => ?_⟩
      by_cases hut : u = t
      · rw [hut]; exact hcond.1
      · exact h5 u (by omega) hu2
    · simp only [if_neg hcond]
      refine ⟨t, le_refl t, by omega, rfl, ?_, fun u h1 h2 => by omega⟩
      by_cases ht : TEST_BIT F (scanHash y j0 t) = 0
      · exact Or.inl ht
      · right
        have : ¬ (j0 - 7 * (t : Int) > i + Q - 1) := fun hh => hcond ⟨ht, hh⟩
        simp only [Q] at this
        omega

theorem scanLoop_window (F : Table) (y : Buf) (m j0 : Int) (c : Nat)
    (hm : m = 7 * ((c : Int) + 1)) :
    ∃ t1 : Nat, t1 ≤ c ∧
      scanLoop F y (j0 - m + Q) (j0 - (j0 - m + Q)).toNat j0 (HASH y j0)
        = (j0 - 7 * (t1 : Int), scanHash y j0 t1, TEST_BIT F (scanHash y j0 t1)) ∧
      (TEST_BIT F (scanHash y j0 t1) = 0 ∨ t1 = c) ∧
      ∀ u : Nat, u < t1 → TEST_BIT F (scanHash y j0 u) ≠ 0 := by
  obtain ⟨t1, -, h2, h3, h4, h5⟩ := scanLoop_spec_hits F y (j0 - m + Q) j0
    (j0 - (j0 - m + Q)).toNat 0 c (by simp only [Q]; push_cast; omega) (by simp only [Q]; omega)
  have e0 : j0 - 7 * ((0 : Nat) : Int) = j0 := by simp
  have e1 : scanHash y j0 0 = HASH y j0 := rfl
  rw [e0, e1] at h3
  exact ⟨t1, by omega, h3, by simpa using h4, fun u hu => h5 u (Nat.zero_le u) hu⟩

/-! ## The table as the fold of the inserted values -/

theorem factorLoop_eq_foldl (x : Buf) (stop : Int) :
    ∀ (fuel : Nat) (j : Int) (v : Nat) (F : Table),
      factorLoop x stop fuel j v F = (factorValues x stop fuel j v).foldl SET_BIT F := by
  intro fuel
  induction fuel with
  | zero => intro j v F; rfl
  | succ fuel ih =>
    intro j v F
    rw [factorLoop, factorValues]
    split
    · simp only [List.foldl_cons]
      exact ih _ _ _
    · rfl

theorem endLoop_eq_foldl (x : Buf) (fact : Int) :
    ∀ (fuel : Nat) (i : Int) (F : Table),
      endLoop x fact fuel i F = (endValues x fact fuel i).foldl SET_BIT F := by
  intro fuel
  induction fuel with
  | zero => intro i F; rfl
  | succ fuel ih =>
    intro i F
    rw [endLoop, endValues]
    split
    · simp only [List.foldl_append]
      rw [ih, factorLoop_eq_foldl]
    · rfl

theorem preprocessing_eq_foldl (x : Buf) (m : Int) (F : Table) :
    preprocessing x m F = (preprocessingValues x m).foldl SET_BIT (clearLoop ASIZE 0 F) := by
  unfold preprocessing preprocessingValues
  exact endLoop_eq_foldl x _ _ _ _

theorem factorValues_mem (x : Buf) (stop e : Int) (v : Nat) :
    ∀ (fuel c : Nat), v ∈ factorValues x stop fuel (e - c) (rollHash x e c) →
      ∃ L : Nat, c < L ∧ L ≤ c + fuel ∧ stop ≤ e - L + 1 ∧ v = rollHash x e L := by
  intro fuel
  induction fuel with
  | zero => intro c h; simp [factorValues] at h
  | succ fuel ih =>
    intro c h
    rw [factorValues] at h
    split at h
    · rename_i hc
      have hv : wrap32 ((rollHash x e c <<< 2) + (x (e - c)).toNat) = rollHash x e (c + 1) := rfl
      have hj : e - (c : Int) - 1 = e - ((c + 1 : Nat) : Int) := by push_cast; ring
      simp only [hv, hj] at h
      rcases List.mem_cons.1 h with h1 | h1
      · exact ⟨c + 1, by omega, by omega, by push_cast; omega, h1⟩
      · obtain ⟨L, h2, h3, h4, h5⟩ := ih (c + 1) h1
        exact ⟨L, by omega, by omega, h4, h5⟩
    · simp at h

theorem endValues_mem (x : Buf) (fact : Int) (v : Nat) :
    ∀ (fuel : Nat) (i : Int), v ∈ endValues x fact fuel i →
      ∃ (e : Int) (L : Nat), 6 ≤ e ∧ e ≤ i ∧ 1 ≤ L ∧ (L : Int) ≤ fact ∧ (L : Int) ≤ e + 1 ∧
        v = rollHash x e L := by
  intro fuel
  induction fuel with
  | zero => intro i h; simp [endValues] at h
  | succ fuel ih =>
    intro i h
    rw [endValues] at h
    split at h
    · rename_i hc
      simp only [Q] at hc
      simp only [MAX_eq] at h
      rcases List.mem_append.1 h with h1 | h1
      · have h0 : factorValues x (max 0 (i - fact + 1)) (i - max 0 (i - fact + 1) + 1).toNat i 0
            = factorValues x (max 0 (i - fact + 1)) (i - max 0 (i - fact + 1) + 1).toNat
              (i - ((0 : Nat) : Int)) (rollHash x i 0) := by
          simp [rollHash]
        rw [h0] at h1
        obtain ⟨L, h2, h3, h4, h5⟩ := factorValues_mem x _ i v _ 0 h1
        exact ⟨i, L, by omega, le_refl i, by omega, by omega, by omega, h5⟩
      · obtain ⟨e, L, h2, h3, h4⟩ := ih (i - 1) h1
        exact ⟨e, L, h2, by omega, h4⟩
    · simp at h

theorem preprocessingValues_mem (x : Buf) (m : Int) (v : Nat)
    (h : v ∈ preprocessingValues x m) :
    ∃ (e : Int) (L : Nat), 6 ≤ e ∧ e ≤ m - 1 ∧ 1 ≤ L ∧ (L : Int) ≤ min m 16 ∧
      (L : Int) ≤ e + 1 ∧ v = rollHash x e L := by
  unfold preprocessingValues at h
  obtain ⟨e, L, h1, h2, h3, h4, h5, h6⟩ := endValues_mem x _ v _ _ h
  refine ⟨e, L, h1, h2, h3, ?_, h5, h6⟩
  split at h4 <;> omega

/-! ## The bits of the table -/

theorem SET_BIT_testBit (F : Table) (v k b : Nat) :
    (SET_BIT F v k).testBit b = true ↔
      (k = v / 32 % 4096 ∧ b = v % 32) ∨ (F k).testBit b = true := by
  unfold SET_BIT
  rw [slot_eq, offset_eq, Nat.one_shiftLeft]
  by_cases hk : k = v / 32 % 4096
  · rw [if_pos hk, Nat.testBit_or, Nat.testBit_two_pow]
    by_cases hb : v % 32 = b
    · simp [hk, hb]
    · have hb' : ¬ b = v % 32 := fun h => hb h.symm
      simp [hb, hb']
  · rw [if_neg hk]
    simp [hk]

theorem foldl_SET_BIT_testBit (k b : Nat) :
    ∀ (vs : List Nat) (F : Table),
      ((vs.foldl SET_BIT F) k).testBit b = true ↔
        (∃ v ∈ vs, k = v / 32 % 4096 ∧ b = v % 32) ∨ (F k).testBit b = true := by
  intro vs
  induction vs with
  | nil => intro F; simp
  | cons v vs ih =>
    intro F
    rw [List.foldl_cons, ih, SET_BIT_testBit]
    constructor
    · rintro (⟨w, hw, h⟩ | h | h)
      · exact Or.inl ⟨w, List.mem_cons_of_mem _ hw, h⟩
      · exact Or.inl ⟨v, List.mem_cons_self _ _, h⟩
      · exact Or.inr h
    · rintro (⟨w, hw, h⟩ | h)
      · rcases List.mem_cons.1 hw with rfl | hw
        · exact Or.inr (Or.inl h)
        · exact Or.inl ⟨w, hw, h⟩
      · exact Or.inr (Or.inr h)

theorem preprocessing_testBit_iff (x : Buf) (m : Int) (F : Table) (k b : Nat)
    (hk : k < ASIZE) :
    (preprocessing x m F k).testBit b = true ↔
      ∃ v ∈ preprocessingValues x m, k = v / 32 % 4096 ∧ b = v % 32 := by
  rw [preprocessing_eq_foldl, foldl_SET_BIT_testBit, clearLoop_zero F k hk]
  simp

theorem factorValues_length (x : Buf) (stop : Int) :
    ∀ (fuel : Nat) (j : Int) (v : Nat), (factorValues x stop fuel j v).length ≤ fuel := by
  intro fuel
  induction fuel with
  | zero => intro j v; simp [factorValues]
  | succ fuel ih =>
    intro j v
    rw [factorValues]
    split
    · simp only [List.length_cons]
      have := ih (j - 1) (wrap32 ((v <<< 2) + (x j).toNat))
      omega
    · simp

theorem endValues_length (x : Buf) (fact : Int) (hf : fact ≤ 16) :
    ∀ (fuel : Nat) (i : Int), (endValues x fact fuel i).length ≤ 16 * fuel := by
  intro fuel
  induction fuel with
  | zero => intro i; simp [endValues]
  | succ fuel ih =>
    intro i
    rw [endValues]
    split
    · simp only [List.length_append, MAX_eq]
      have h1 := factorValues_length x (max 0 (i - fact + 1))
        (i - max 0 (i - fact + 1) + 1).toNat i 0
      have h2 := ih (i - 1)
      omega
    · simp

theorem preprocessingValues_length (x : Buf) (m : Int) :
    (preprocessingValues x m).length ≤ ((m - 6) * 16).toNat := by
  unfold preprocessingValues
  have h := endValues_length x (if m < 16 then m else 16) (by split <;> omega)
    (m - (Q - 1)).toNat (m - 1)
  simp only [Q] at h ⊢
  omega

theorem bitCount_preprocessing_le (x : Buf) (m : Int) (F : Table) :
    bitCount (preprocessing x m F) ≤ (preprocessingValues x m).length := by
  unfold bitCount
  have hsub : ((Finset.range (2 ^ 17)).filter fun a =>
        (preprocessing x m F (a / 32)).testBit (a % 32) = true)
      ⊆ ((preprocessingValues x m).map fun v => v % 2 ^ 17).toFinset := by
    intro a ha
    rw [Finset.mem_filter, Finset.mem_range] at ha
    obtain ⟨ha1, ha2⟩ := ha
    have hk : a / 32 < ASIZE := by rw [ASIZE_eq]; omega
    obtain ⟨v, hv, h1, h2⟩ := (preprocessing_testBit_iff x m F _ _ hk).1 ha2
    rw [List.mem_toFinset, List.mem_map]
    exact ⟨v, hv, by omega⟩
  calc _ ≤ (((preprocessingValues x m).map fun v => v % 2 ^ 17).toFinset).card :=
        Finset.card_le_card hsub
    _ ≤ ((preprocessingValues x m).map fun v => v % 2 ^ 17).length := List.toFinset_card_le _
    _ = (preprocessingValues x m).length := List.length_map _ _

/-! ## The index invariant of the scan -/

theorem scanArgs_mem (F : Table) (y : Buf) (i : Int) :
    ∀ (fuel : Nat) (j : Int) (h : Nat), (∃ c : Nat, j - i = 7 * (c : Int)) →
      ∀ a ∈ scanArgs F y i fuel j h, (∃ c : Nat, a - i = 7 * (c : Int)) ∧ a < j := by
  intro fuel
  induction fuel with
  | zero => intro j h _ a ha; simp [scanArgs] at ha
  | succ fuel ih =>
    intro j h hc a ha
    rw [scanArgs] at ha
    split at ha
    · rename_i hcond
      have hQ := hcond.2
      simp only [Q] at hQ ha
      obtain ⟨c, hc⟩ := hc
      have hstep : ∃ c1 : Nat, j - 7 - i = 7 * (c1 : Int) := ⟨c - 1, by omega⟩
      rcases List.mem_cons.1 ha with rfl | h1
      · exact ⟨hstep, by omega⟩
      · obtain ⟨h2, h3⟩ := ih _ _ hstep a h1
        exact ⟨h2, by omega⟩
    · simp at ha

theorem searchLoopArgs_mem (F : Table) (x : Buf) (plen : Int) (y : Buf) (n : Int)
    (h : 7 ≤ plen) :
    ∀ (fuel : Nat) (s : Int × Int), truncLen plen - 1 ≤ s.1 →
      ∀ w ∈ searchLoopArgs F x plen (truncLen plen) (truncLen plen - Q + 1) y n fuel s,
        truncLen plen - 1 ≤ w.1 ∧ w.1 < n ∧
          ∀ j ∈ w.2, (∃ c : Nat, j - (w.1 - truncLen plen + 7) = 7 * (c : Int)) ∧
            6 ≤ j ∧ j < n := by
  obtain ⟨c, hc, -, -⟩ := truncLen_facts plen h
  intro fuel
  induction fuel with
  | zero => intro s _ w hw; simp [searchLoopArgs] at hw
  | succ fuel ih =>
    intro s hs w hw
    rw [searchLoopArgs] at hw
    split at hw
    · rename_i hlt
      rcases List.mem_cons.1 hw with rfl | h1
      · refine ⟨hs, hlt, fun j hj => ?_⟩
        simp only at hj ⊢
        have h0 : ∃ c0 : Nat, s.1 - (s.1 - truncLen plen + 7) = 7 * (c0 : Int) := ⟨c, by omega⟩
        rcases List.mem_cons.1 hj with rfl | h2
        · exact ⟨h0, by omega, hlt⟩
        · have hi : s.1 - truncLen plen + Q = s.1 - truncLen plen + 7 := by simp only [Q]
          rw [hi] at h2
          obtain ⟨⟨c1, hc1⟩, h4⟩ := scanArgs_mem F y _ _ _ _ h0 j h2
          exact ⟨⟨c1, hc1⟩, by omega, by omega⟩
      · have := searchStep_lt F x plen y n h s
        exact ih _ (by omega) w h1
    · simp at hw

/-! ## Overflow of the window position -/

theorem wrapInt_eq (z : Int) (h1 : -2147483648 ≤ z) (h2 : z ≤ 2147483647) : wrapInt z = z := by
  unfold wrapInt
  norm_num
  omega

theorem HASH32_zero (j : Int) : HASH32 (fun _ => 0) j = 0 := by
  simp [HASH32]

theorem scanLoop32_miss (F : Table) (y : Buf) (i : Int) (fuel : Nat) (j : Int) (h : Nat)
    (hF : TEST_BIT F h = 0) : scanLoop32 F y i fuel j h = (j, h, 0) := by
  cases fuel with
  | zero => rw [scanLoop32, hF]
  | succ fuel => rw [scanLoop32]; simp [hF]

theorem searchStep32_zero_text (F : Table) (x : Buf) (plen m mq n : Int) (j count : Int)
    (hF : TEST_BIT F 0 = 0) :
    searchStep32 F x plen m mq (fun _ => 0) n (j, count) = (wrapInt (j + mq), count) := by
  simp only [searchStep32, HASH32_zero, scanLoop32_miss F _ _ _ _ 0 hF]
  simp

theorem searchLoop32_zero_text (F : Table) (x : Buf) (plen m mq n : Int)
    (hF : TEST_BIT F 0 = 0) (hmq : 0 ≤ mq) (count : Int) :
    ∀ (k fuel : Nat) (j : Int), -2147483648 ≤ j → j + mq * (k : Int) ≤ 2147483647 →
      j + mq * (k : Int) ≤ n + mq - 1 →
      searchLoop32 F x plen m mq (fun _ => 0) n (k + fuel) (j, count)
        = searchLoop32 F x plen m mq (fun _ => 0) n fuel (j + mq * (k : Int), count) := by
  intro k
  induction k with
  | zero => intro fuel j _ _ _; simp
  | succ k ih =>
    intro fuel j h1 h2 h3
    have hk : mq * ((k + 1 : Nat) : Int) = mq + mq * (k : Int) := by push_cast; ring
    rw [hk] at h2 h3
    have hpos : 0 ≤ mq * (k : Int) := Int.mul_nonneg hmq (Int.ofNat_nonneg k)
    rw [show k + 1 + fuel = (k + fuel) + 1 by omega, searchLoop32, if_pos (by simp only; omega),
      searchStep32_zero_text F x plen m mq n j count hF, wrapInt_eq (j + mq) (by omega) (by omega),
      ih fuel (j + mq) (by omega) (by omega) (by omega), hk]
    congr 2
    ring

/-! ## Agreement of the two arithmetics inside the range of `int` -/

theorem HASH32_eq (y : Buf) (j : Int) (h1 : -2147483642 ≤ j) (h2 : j ≤ 2147483647) :
    HASH32 y j = HASH y j := by
  unfold HASH32 HASH
  rw [wrapInt_eq (j - 1) (by omega) (by omega), wrapInt_eq (j - 2) (by omega) (by omega),
    wrapInt_eq (j - 3) (by omega) (by omega), wrapInt_eq (j - 4) (by omega) (by omega),
    wrapInt_eq (j - 5) (by omega) (by omega), wrapInt_eq (j - 6) (by omega) (by omega)]

theorem scanLoop32_eq (F : Table) (y : Buf) (i : Int) (hi : 6 ≤ i) (hi2 : i + 7 ≤ 2147483647) :
    ∀ (fuel : Nat) (j : Int) (h : Nat), j ≤ 2147483647 →
      scanLoop32 F y i fuel j h = scanLoop F y i fuel j h := by
  intro fuel
  induction fuel with
  | zero => intro j h _; rfl
  | succ fuel ih =>
    intro j h hj
    rw [scanLoop32, scanLoop]
    have e1 : wrapInt (wrapInt (i + Q) - 1) = i + Q - 1 := by
      simp only [Q]
      rw [wrapInt_eq (i + 7) (by omega) (by omega), wrapInt_eq (i + 7 - 1) (by omega) (by omega)]
    rw [e1]
    by_cases hc : TEST_BIT F h ≠ 0 ∧ j > i + Q - 1
    · simp only [if_pos hc]
      have hQ := hc.2
      simp only [Q] at hQ
      have e2 : wrapInt (j - Q) = j - Q := by
        simp only [Q]
        exact wrapInt_eq (j - 7) (by omega) (by omega)
      have e3 : HASH32 y (j - Q) = HASH y (j - Q) := by
        simp only [Q]
        exact HASH32_eq y (j - 7) (by omega) (by omega)
      rw [e2, e3]
      exact ih _ _ (by simp only [Q]; omega)
    · simp only [if_neg hc]

theorem verifyLoop32_eq (x y : Buf) (plen i : Int) (hi : 0 ≤ i)
    (hip : i + plen ≤ 2147483647) :
    ∀ (fuel : Nat) (k : Int), 0 ≤ k →
      verifyLoop32 x y plen i fuel k = verifyLoop x y plen i fuel k := by
  intro fuel
  induction fuel with
  | zero => intro k _; rfl
  | succ fuel ih =>
    intro k hk
    rw [verifyLoop32, verifyLoop]
    by_cases hlt : k < plen
    · rw [wrapInt_eq (i + k) (by omega) (by omega), wrapInt_eq (k + 1) (by omega) (by omega)]
      by_cases hc : k < plen ∧ x k = y (i + k)
      · rw [if_pos hc, if_pos hc]
        exact ih _ (by omega)
      · rw [if_neg hc, if_neg hc]
    · rw [if_neg (fun h => hlt h.1), if_neg (fun h => hlt h.1)]

theorem searchStep32_eq (F : Table) (x : Buf) (plen m : Int) (y : Buf) (n : Int) (c : Nat)
    (hm : m = 7 * ((c : Int) + 1)) (hmp : m ≤ plen) (hn : n + plen ≤ 2147483647)
    (j count : Int) (hj : m - 1 ≤ j) (hjn : j < n) (hc0 : 0 ≤ count) (hcn : count ≤ n) :
    searchStep32 F x plen m (m - Q + 1) y n (j, count)
      = searchStep F x plen m (m - Q + 1) y n (j, count) := by
  obtain ⟨t1, ht1, hres, -, -⟩ := scanLoop_window F y m j c hm
  have ei : wrapInt (wrapInt (j - m) + Q) = j - m + Q := by
    simp only [Q]
    rw [wrapInt_eq (j - m) (by omega) (by omega), wrapInt_eq (j - m + 7) (by omega) (by omega)]
  have eh : HASH32 y j = HASH y j := HASH32_eq y j (by omega) (by omega)
  have es : scanLoop32 F y (j - m + Q) (j - (j - m + Q)).toNat j (HASH y j)
      = scanLoop F y (j - m + Q) (j - (j - m + Q)).toNat j (HASH y j) :=
    scanLoop32_eq F y _ (by simp only [Q]; omega) (by simp only [Q]; omega) _ _ _ (by omega)
  have ev : wrapInt (j - m + Q - (Q - 1)) = j - m + Q - (Q - 1) := by
    simp only [Q]
    exact wrapInt_eq _ (by omega) (by omega)
  have evl : verifyLoop32 x y plen (j - m + Q - (Q - 1)) plen.toNat 0
      = verifyLoop x y plen (j - m + Q - (Q - 1)) plen.toNat 0 :=
    verifyLoop32_eq x y plen _ (by simp only [Q]; omega) (by simp only [Q]; omega) _ 0 (le_refl 0)
  have en : wrapInt (n - plen) = n - plen := wrapInt_eq _ (by omega) (by omega)
  have ec : wrapInt (count + 1) = count + 1 := wrapInt_eq _ (by omega) (by omega)
  have ej : wrapInt (j - 7 * (t1 : Int) + (m - Q + 1)) = j - 7 * (t1 : Int) + (m - Q + 1) := by
    simp only [Q]
    exact wrapInt_eq _ (by omega) (by omega)
  simp only [searchStep32, searchStep, ei, eh, es, ev, evl, en, ec, hres, ej]

theorem searchLoop32_eq (F : Table) (x : Buf) (plen m : Int) (y : Buf) (n : Int) (c : Nat)
    (hm : m = 7 * ((c : Int) + 1)) (hmp : m ≤ plen) (hn : n + plen ≤ 2147483647) :
    ∀ (fuel : Nat) (s : Int × Int), m - 1 ≤ s.1 → 0 ≤ s.2 → s.2 ≤ s.1 - m + 1 →
      searchLoop32 F x plen m (m - Q + 1) y n fuel s
        = searchLoop F x plen m (m - Q + 1) y n fuel s := by
  intro fuel
  induction fuel with
  | zero => intro s _ _ _; rfl
  | succ fuel ih =>
    intro s h1 h2 h3
    obtain ⟨j, count⟩ := s
    simp only at h1 h2 h3
    rw [searchLoop32, searchLoop]
    by_cases hlt : j < n
    · simp only [if_pos hlt]
      rw [searchStep32_eq F x plen m y n c hm hmp hn j count h1 hlt h2 (by omega)]
      obtain ⟨t1, ht1, -, heq⟩ := searchStep_eq F x plen m y n c hm j count
      apply ih
      · rw [heq]; simp only; omega
      · rw [heq]; simp only; split
        · split <;> omega
        · omega
      · rw [heq]; simp only; split
        · split <;> omega
        · omega
    · simp only [if_neg hlt]

/-- Within the range of `int` the embedding with mathematical integers is exact: for
`plen ≥ 7` and `n + plen ≤ 2147483647` the searching loop with `int` arithmetic ends
with the number of occurrences as its count, and every array access of `search` is
in range provided the text may be read up to `plen - m` bytes past its end (none
when `plen` is a multiple of 7). -/
theorem search_within_int_range (x : Buf) (plen : Int) (y : Buf) (n : Int) (F0 : Table)
    (h : 7 ≤ plen) (hn : n + plen ≤ 2147483647) :
    (searchLoop32 (preprocessing x (truncLen plen) F0) x plen (truncLen plen)
        (truncLen plen - Q + 1) y n (n - (truncLen plen - 1)).toNat (truncLen plen - 1, 0)).2
      = occurrences x plen y n ∧
      (∀ a ∈ searchLog x plen y n F0, a.inRange plen (n + (plen - truncLen plen))) ∧
      (plen % 7 = 0 → ∀ a ∈ searchLog x plen y n F0, a.inRange plen n) := by
  obtain ⟨c, hc, hle, -⟩ := truncLen_facts plen h
  refine ⟨?_, searchLog_inRange x plen y n F0 h, fun h7 => ?_⟩
  · rw [searchLoop32_eq _ x plen _ y n c hc hle hn _ _ (le_refl _) (le_refl _) (by simp)]
    have := search_eq_occurrences x plen y n F0 h
    unfold search scan at this
    rw [if_neg (by simp only [Q]; omega)] at this
    exact this
  · have ht : truncLen plen = plen := by rw [truncLen_eq plen (by omega)]; omega
    have := searchLog_inRange x plen y n F0 h
    rw [ht] at this
    simpa using this

/-! ## Results for mathematical integers and readable memory

The theorems of this section are about `search` and `scan` as embedded with
mathematical integers and total buffers.  By `search_within_int_range` they apply
to the `int` arithmetic of the source when `n + plen ≤ 2147483647`; they say nothing
on whether the bytes that the code reads lie inside the text, which is the subject
of `searchLog_inRange`. -/

/-- With mathematical integers and every byte of the buffer readable: for a pattern
of length `plen ≥ 7`, a text shorter than the pattern gives `0`, and a text of the
same length gives `1` when it equals the pattern byte for byte and `0` otherwise. -/
theorem search_boundary (x : Buf) (plen : Int) (y : Buf) (n : Int) (F0 : Table)
    (h : 7 ≤ plen) :
    (n < plen → search x plen y n F0 = 0) ∧
      (n = plen → occursAt x plen y 0 → search x plen y n F0 = 1) ∧
      (n = plen → ¬ occursAt x plen y 0 → search x plen y n F0 = 0) := by
  rw [search_eq_occurrences x plen y n F0 h]
  refine ⟨fun hn => ?_, fun hn ho => ?_, fun hn ho => ?_⟩
  · have e : (n - plen + 1).toNat = 0 := by omega
    simp [occurrences, e]
  · have e : (n - plen + 1).toNat = 1 := by omega
    have hm : matchAt x plen y 0 = true := (matchAt_iff x plen y 0).2 ho
    simp [occurrences, e, List.range_succ, hm]
  · have e : (n - plen + 1).toNat = 1 := by omega
    have hm : ¬ matchAt x plen y 0 = true := fun hm => ho ((matchAt_iff x plen y 0).1 hm)
    simp [occurrences, e, List.range_succ, hm]

/-- With mathematical integers and every byte of the buffer readable: when the
pattern (of length `plen ≥ 7`) occurs at no position of the text, `search` returns
`0`. -/
theorem search_zero_of_no_occurrence (x : Buf) (plen : Int) (y : Buf) (n : Int) (F0 : Table)
    (h : 7 ≤ plen) (hno : ∀ p : Int, 0 ≤ p → p + plen ≤ n → ¬ occursAt x plen y p) :
    search x plen y n F0 = 0 := by
  rw [search_eq_occurrences x plen y n F0 h]
  have : occurrences x plen y n = 0 := by
    unfold occurrences
    rw [List.countP_eq_zero]
    intro p hp hm
    have hp' := List.mem_range.1 hp
    exact hno p (by omega) (by omega) ((matchAt_iff x plen y p).1 hm)
  rw [this]
  rfl

/-- With mathematical integers and every byte of the buffer readable: for a pattern
of `plen ≥ 7` copies of a byte `c` and a text of `n ≥ plen` copies of `c`, `search`
returns `n - plen + 1`; and whenever the scan loop has retreated to the left bound
`i` of a window, so that the window is verified, the next window starts one
position further. -/
theorem search_counts_overlapping (c : UInt8) (x : Buf) (plen : Int) (y : Buf) (n : Int)
    (F0 : Table) (h : 7 ≤ plen) (hn : plen ≤ n)
    (hx : ∀ k : Int, 0 ≤ k → k < plen → x k = c) (hy : ∀ k : Int, 0 ≤ k → k < n → y k = c) :
    search x plen y n F0 = n - plen + 1 ∧
      ∀ (F : Table) (j count : Int),
        (scanLoop F y (j - truncLen plen + Q) (j - (j - truncLen plen + Q)).toNat j
            (HASH y j)).1 = j - truncLen plen + Q →
          (searchStep F x plen (truncLen plen) (truncLen plen - Q + 1) y n (j, count)).1
            = j + 1 := by
  constructor
  · rw [search_eq_occurrences x plen y n F0 h]
    have : occurrences x plen y n = (n - plen + 1).toNat := by
      unfold occurrences
      rw [List.countP_eq_length.2, List.length_range]
      intro p hp
      have hp' := List.mem_range.1 hp
      rw [matchAt_iff]
      intro k hk0 hk
      rw [hx k hk0 hk, hy (p + k) (by omega) (by omega)]
    rw [this]
    omega
  · intro F j count hj
    simp only [searchStep]
    rw [hj]
    simp only [Q]
    ring

/-- With mathematical integers: for `plen ≥ 7` each pass through the body of the
outer loop moves `j` to `j + mq - 7t` for some number `t` of retreats with
`7t ≤ m - 7`, which is strictly greater than `j`; the loop is left as soon as
`j ≥ n`; run with the fuel `n - (m - 1)` it ends in a state with `j ≥ n`, that is by
its own exit test, and more fuel changes nothing.  The same holds for the fuel of
the scan loop and of the verification loop inside the body. -/
theorem search_loop_terminates (F : Table) (x : Buf) (plen : Int) (y : Buf) (n : Int)
    (h : 7 ≤ plen) :
    (∀ s : Int × Int, ∃ t : Nat, 7 * (t : Int) ≤ truncLen plen - 7 ∧
        (searchStep F x plen (truncLen plen) (truncLen plen - Q + 1) y n s).1
          = s.1 - 7 * (t : Int) + (truncLen plen - Q + 1) ∧
        s.1 < (searchStep F x plen (truncLen plen) (truncLen plen - Q + 1) y n s).1) ∧
      (∀ (fuel : Nat) (s : Int × Int), n ≤ s.1 →
        searchLoop F x plen (truncLen plen) (truncLen plen - Q + 1) y n fuel s = s) ∧
      n ≤ (searchLoop F x plen (truncLen plen) (truncLen plen - Q + 1) y n
            (n - (truncLen plen - 1)).toNat (truncLen plen - 1, 0)).1 ∧
      (∀ d : Nat,
        searchLoop F x plen (truncLen plen) (truncLen plen - Q + 1) y n
            ((n - (truncLen plen - 1)).toNat + d) (truncLen plen - 1, 0)
          = searchLoop F x plen (truncLen plen) (truncLen plen - Q + 1) y n
            (n - (truncLen plen - 1)).toNat (truncLen plen - 1, 0)) ∧
      (∀ (j : Int) (v d : Nat),
        scanLoop F y (j - truncLen plen + Q) ((j - (j - truncLen plen + Q)).toNat + d) j v
          = scanLoop F y (j - truncLen plen + Q) (j - (j - truncLen plen + Q)).toNat j v) ∧
      (∀ (i : Int) (d : Nat),
        verifyLoop x y plen i (plen.toNat + d) 0 = verifyLoop x y plen i plen.toNat 0) := by
  refine ⟨fun s => ?_, fun fuel s hs => ?_, ?_, fun d => ?_, fun j v d => ?_, fun i d => ?_⟩
  · obtain ⟨t, ht, heq⟩ := searchStep_advance F x plen y n h s
    exact ⟨t, ht, heq, searchStep_lt F x plen y n h s⟩
  · exact searchLoop_done F x plen _ _ y n fuel s hs
  · exact searchLoop_exit F x plen y n h _ _ (by simp only; omega)
  · exact searchLoop_fuel F x plen y n h d _ _ (by simp only; omega)
  · obtain ⟨c, hc, -, -⟩ := truncLen_facts plen h
    exact scanLoop_fuel F y _ d _ j v (by simp only [Q]; omega)
  · exact verifyLoop_fuel x y plen i d _ 0 (by omega)

/-- With mathematical integers and every byte of the buffer readable: for every
pattern of length `plen ≥ 7`, every text and every table `G` in which every bit set
by `preprocessing(x, m)` is set, the searching phase run against `G` returns what
`search` returns; the table with all bits set is such a table. -/
theorem scan_superset_eq_search (x : Buf) (plen : Int) (y : Buf) (n : Int) (F0 G : Table)
    (h : 7 ≤ plen)
    (hG : ∀ k b : Nat, k < ASIZE → b < 32 →
      (preprocessing x (truncLen plen) F0 k).testBit b = true → (G k).testBit b = true) :
    scan G x plen (truncLen plen) y n = search x plen y n F0 ∧
      scan (fun _ => 4294967295) x plen (truncLen plen) y n = search x plen y n F0 := by
  rw [search_eq_occurrences x plen y n F0 h]
  refine ⟨scan_eq_occurrences_of_superset x plen y n F0 G h hG, ?_⟩
  apply scan_eq_occurrences_of_superset x plen y n F0 _ h
  intro k b _ hb _
  have : (4294967295 : Nat) = 2 ^ 32 - 1 := by norm_num
  rw [this, Nat.testBit_two_pow_sub_one]
  simpa using hb

/-- With mathematical integers: in every execution of `search` with `plen ≥ 7`, at
the top of each pass through the outer loop `m - 1 ≤ j < n`; whenever `HASH(y, j)` is
evaluated in the pass for the window with right edge `j0`, `j - i` is a non-negative
multiple of 7, `i = j0 - m + 7` being the left bound of the scan, and `6 ≤ j < n`,
so that the bytes `y[j-6 .. j]` lie inside the text; and the scan loop ends at
`j = j0 - 7t ≥ i`, at `j = i` exactly unless a probe failed. -/
theorem scan_index_invariant (x : Buf) (plen : Int) (y : Buf) (n : Int) (F0 : Table)
    (h : 7 ≤ plen) :
    (∀ w ∈ searchArgs x plen y n F0,
        truncLen plen - 1 ≤ w.1 ∧ w.1 < n ∧
          ∀ j ∈ w.2, (∃ c : Nat, j - (w.1 - truncLen plen + 7) = 7 * (c : Int)) ∧
            6 ≤ j ∧ j < n) ∧
      ∀ (F : Table) (j0 : Int), ∃ t : Nat,
        (scanLoop F y (j0 - truncLen plen + Q) (j0 - (j0 - truncLen plen + Q)).toNat j0
          (HASH y j0)).1 = j0 - 7 * (t : Int) ∧
        j0 - truncLen plen + 7 ≤ j0 - 7 * (t : Int) ∧
        ((scanLoop F y (j0 - truncLen plen + Q) (j0 - (j0 - truncLen plen + Q)).toNat j0
            (HASH y j0)).2.2 ≠ 0 →
          j0 - 7 * (t : Int) = j0 - truncLen plen + 7) := by
  obtain ⟨c, hc, -, -⟩ := truncLen_facts plen h
  constructor
  · intro w hw
    unfold searchArgs at hw
    rw [if_neg (by simp only [Q]; omega)] at hw
    exact searchLoopArgs_mem _ x plen y n h _ _ (le_refl _) w hw
  · intro F j0
    obtain ⟨t1, ht1, hres, hor, -⟩ := scanLoop_window F y (truncLen plen) j0 c hc
    refine ⟨t1, by rw [hres], by omega, fun hne => ?_⟩
    rw [hres] at hne
    simp only at hne
    rcases hor with h0 | h0
    · exact absurd h0 hne
    · omega

/-! ## The claims -/

/-- Claim C1 fails on the code: for the pattern `GCAGAGAG` (length 8) and the text
`TTGCAGAGA` (length 9), in which the pattern does not occur, the window `GCAGAGA` at
the end of the text passes the filter and the verification loop reads `y[9]`, one
past the text: the code has no defined result where the claim says `0`. -/
theorem count_input_reads_past_text :
    Access.text 9 ∈ searchLog (bufOf [71, 67, 65, 71, 65, 71, 65, 71]) 8
        (bufOf [84, 84, 71, 67, 65, 71, 65, 71, 65]) 9 (fun _ => 0) ∧
      occurrences (bufOf [71, 67, 65, 71, 65, 71, 65, 71]) 8
        (bufOf [84, 84, 71, 67, 65, 71, 65, 71, 65]) 9 = 0 := by
  decide!

/-- Claim C2: `search` returns the sentinel `-1` if and only if `plen < 7`, and for
`plen ≥ 7` the result is a non-negative count. -/
theorem search_sentinel_iff (x : Buf) (plen : Int) (y : Buf) (n : Int) (F0 : Table) :
    (search x plen y n F0 = -1 ↔ plen < 7) ∧ (7 ≤ plen → 0 ≤ search x plen y n F0) := by
  have hnn : 7 ≤ plen → 0 ≤ search x plen y n F0 := by
    intro h
    rw [search_eq_occurrences x plen y n F0 h]
    exact Int.ofNat_nonneg _
  refine ⟨⟨fun h => ?_, fun h => ?_⟩, hnn⟩
  · by_contra hc
    have := hnn (by omega)
    omega
  · unfold search
    rw [if_pos (by simp only [Q]; exact h)]

/-- Claim C2, scenario 2: the six-byte pattern `ABCDEF` is rejected. -/
theorem search_sentinel_iff_witness :
    search (bufOf [65, 66, 67, 68, 69, 70]) 6 (bufOf [65, 66, 67, 68, 69, 70, 71, 72]) 8
      (fun _ => 0) = -1 :=
  (search_sentinel_iff _ 6 _ 8 _).1.2 (by decide)

/-- Claim C3 fails on the code: for the pattern `GCAGAGAG` (length 8) the text
`TGCAGAGA` of the same length, which differs from the pattern, makes the
verification loop read `y[8]`, and the shorter text `GCAGAGA` (length 7) makes it
read `y[7]`: the code has no defined result where the claim says `0`. -/
theorem boundary_input_reads_past_text :
    Access.text 8 ∈ searchLog (bufOf [71, 67, 65, 71, 65, 71, 65, 71]) 8
        (bufOf [84, 71, 67, 65, 71, 65, 71, 65]) 8 (fun _ => 0) ∧
      Access.text 7 ∈ searchLog (bufOf [71, 67, 65, 71, 65, 71, 65, 71]) 8
        (bufOf [71, 67, 65, 71, 65, 71, 65]) 7 (fun _ => 0) := by
  decide!

/-- Claim C4 fails on the code: for the pattern `ABCDEFGH` (length 8) and the text
`XABCDEFG` (length 8) the verification loop reads `y[8]`, one past the text, and for
the text `ABCDEFG` (length 7) it reads `y[7]`.  (What holds for every input is
`searchLog_inRange`.) -/
theorem verify_reads_past_text :
    Access.text 8 ∈ searchLog (bufOf [65, 66, 67, 68, 69, 70, 71, 72]) 8
        (bufOf [88, 65, 66, 67, 68, 69, 70, 71]) 8 (fun _ => 0) ∧
      Access.text 7 ∈ searchLog (bufOf [65, 66, 67, 68, 69, 70, 71, 72]) 8
        (bufOf [65, 66, 67, 68, 69, 70, 71]) 7 (fun _ => 0) := by
  decide!

/-- Claim C5: the filter has no false negative.  With `F` the table built by
`preprocessing(x, m)`, for every start `a ≥ 0` and every `t ≥ 1` with `a + 7t ≤ m`,
the hash the scanner computes over the `t` consecutive Q-grams of `x[a .. a+7t)`
addresses a bit that is set in `F`.  (It holds for every `m`, a multiple of 7 or not.) -/
theorem filter_no_false_negative (x : Buf) (m : Int) (F0 : Table) (a : Int) (t : Nat)
    (ha : 0 ≤ a) (ht : 1 ≤ t) (hat : a + 7 * (t : Int) ≤ m) :
    TEST_BIT (preprocessing x m F0) (scanHash x (a + 7 * (t : Int) - 1) (t - 1)) ≠ 0 := by
  obtain ⟨u, rfl⟩ : ∃ u, t = u + 1 := ⟨t - 1, by omega⟩
  have hs := scanHash_modEq x (a + 7 * ((u + 1 : Nat) : Int) - 1) u
  have e : a + 7 * ((u + 1 : Nat) : Int) - 1 - 7 * (u : Int) - 6 = a := by push_cast; ring
  rw [e] at hs
  have hf := filter_complete x m F0 a (7 * (u + 1)) ha (by omega) (by push_cast at hat ⊢; omega)
  rw [Nat.add_sub_cancel]
  rwa [TEST_BIT_congr (F := preprocessing x m F0)
    (v := scanHash x (a + 7 * ((u + 1 : Nat) : Int) - 1) u)
    (w := factorHash x a (7 * (u + 1))) (by omega)]

/-- Claim C5 on a 21-byte pattern of large bytes, where the accumulated hash
overflows 32 bits: the three Q-grams of the whole pattern pass the filter. -/
theorem filter_no_false_negative_witness :
    TEST_BIT
        (preprocessing (bufOf [255, 254, 253, 252, 251, 250, 249, 248, 247, 246, 245, 244,
          243, 242, 241, 240, 239, 238, 237, 236, 235]) 21 (fun _ => 0))
        (scanHash (bufOf [255, 254, 253, 252, 251, 250, 249, 248, 247, 246, 245, 244,
          243, 242, 241, 240, 239, 238, 237, 236, 235]) (0 + 7 * ((3 : Nat) : Int) - 1) (3 - 1))
      ≠ 0 :=
  filter_no_false_negative _ 21 _ 0 3 (by decide) (by decide) (by decide)

/-- Claim C6 fails on the code: the pattern `ZZZZZZZZ` (length 8) occurs at no
position of the text `AZZZZZZZ` (length 8), and the verification loop reads `y[8]`,
one past the text: the code has no defined result where the claim says `0`. -/
theorem absent_pattern_reads_past_text :
    Access.text 8 ∈ searchLog (bufOf [90, 90, 90, 90, 90, 90, 90, 90]) 8
        (bufOf [65, 90, 90, 90, 90, 90, 90, 90]) 8 (fun _ => 0) ∧
      occurrences (bufOf [90, 90, 90, 90, 90, 90, 90, 90]) 8
        (bufOf [65, 90, 90, 90, 90, 90, 90, 90]) 8 = 0 := by
  decide!

/-- Claim C7 fails on the code: for the pattern of 8 bytes `A` and the text of 9
bytes `A` the claim gives `9 - 8 + 1 = 2`; the window that starts at position 2
passes the filter and the verification loop reads `y[9]`, one past the text, so the
code has no defined result. -/
theorem overlapping_input_reads_past_text :
    Access.text 9 ∈ searchLog (bufOf [65, 65, 65, 65, 65, 65, 65, 65]) 8
      (bufOf [65, 65, 65, 65, 65, 65, 65, 65, 65]) 9 (fun _ => 0) := by
  decide!

/-- Claim C8 fails on the code: for the pattern of 14 bytes `A` (`m = 14`, `mq = 8`)
and a text of `n = 2147483647` zero bytes, every window misses the filter, the outer
loop comes to `j = 2147483645 < n` after 268435454 passes, and the next pass, in
`int` arithmetic, sets `j` to `-2147483643`: `j` has not grown and the loop goes on. -/
theorem window_position_overflows :
    (∀ fuel : Nat,
        searchLoop32
            (preprocessing (bufOf [65, 65, 65, 65, 65, 65, 65, 65, 65, 65, 65, 65, 65, 65])
              (truncLen 14) (fun _ => 0))
            (bufOf [65, 65, 65, 65, 65, 65, 65, 65, 65, 65, 65, 65, 65, 65]) 14 (truncLen 14)
            (truncLen 14 - Q + 1) (fun _ => 0) 2147483647 (268435454 + fuel)
            (truncLen 14 - 1, 0)
          = searchLoop32
            (preprocessing (bufOf [65, 65, 65, 65, 65, 65, 65, 65, 65, 65, 65, 65, 65, 65])
              (truncLen 14) (fun _ => 0))
            (bufOf [65, 65, 65, 65, 65, 65, 65, 65, 65, 65, 65, 65, 65, 65]) 14 (truncLen 14)
            (truncLen 14 - Q + 1) (fun _ => 0) 2147483647 fuel (2147483645, 0)) ∧
      (2147483645 : Int) < 2147483647 ∧
      searchStep32
          (preprocessing (bufOf [65, 65, 65, 65, 65, 65, 65, 65, 65, 65, 65, 65, 65, 65])
            (truncLen 14) (fun _ => 0))
          (bufOf [65, 65, 65, 65, 65, 65, 65, 65, 65, 65, 65, 65, 65, 65]) 14 (truncLen 14)
          (truncLen 14 - Q + 1) (fun _ => 0) 2147483647 (2147483645, 0)
        = (-2147483643, 0) := by
  have hF : TEST_BIT
      (preprocessing (bufOf [65, 65, 65, 65, 65, 65, 65, 65, 65, 65, 65, 65, 65, 65])
        (truncLen 14) (fun _ => 0)) 0 = 0 := by
    decide!
  have hm : truncLen 14 = 14 := by decide
  have hmq : truncLen 14 - Q + 1 = 8 := by decide
  rw [hmq]
  refine ⟨fun fuel => ?_, by decide, ?_⟩
  · have h := searchLoop32_zero_text _
      (bufOf [65, 65, 65, 65, 65, 65, 65, 65, 65, 65, 65, 65, 65, 65]) 14 (truncLen 14) 8
      2147483647 hF (by decide) 0 268435454 fuel (truncLen 14 - 1) (by rw [hm]; decide)
      (by rw [hm]; decide) (by rw [hm]; decide)
    rw [h]
    congr 2
  · rw [searchStep32_zero_text _ _ _ _ _ _ _ _ hF]
    decide

/-- Claim C9: no stale filter state.  `preprocessing` leaves the same 4096 words
whatever the table held before, and the value of `search` does not depend on the
initial content of its filter storage. -/
theorem no_stale_filter_state (x : Buf) (m plen : Int) (y : Buf) (n : Int) (F1 F2 : Table) :
    (∀ k, k < ASIZE → preprocessing x m F1 k = preprocessing x m F2 k) ∧
      search x plen y n F1 = search x plen y n F2 :=
  ⟨preprocessing_agree x m F1 F2, search_agree x plen y n F1 F2⟩

/-- Claim C10: after `preprocessing(x, m, F)` with `m ≥ 7`, for every end position
`6 ≤ e ≤ m - 1` and every length `1 ≤ L ≤ min(16, e + 1)`, the bit addressed by the
rolling hash of `x[e-L+1 .. e]` is set in the table. -/
theorem preprocessing_sets_factor_bits (x : Buf) (m : Int) (F : Table) (e : Int) (L : Nat)
    (_hm : 7 ≤ m) (he : 6 ≤ e) (hem : e ≤ m - 1) (hL1 : 1 ≤ L)
    (hL : (L : Int) ≤ min 16 (e + 1)) :
    TEST_BIT (preprocessing x m F) (rollHash x e L) ≠ 0 :=
  preprocessing_sets x m F e L he hem hL1 (by omega) (by omega)

/-- Claim C10 on a 16-byte pattern of large bytes: the 16-byte factor ending at
position 15 is in the table. -/
theorem preprocessing_sets_factor_bits_witness :
    TEST_BIT
        (preprocessing (bufOf [255, 254, 253, 252, 251, 250, 249, 248, 247, 246, 245, 244,
          243, 242, 241, 240]) 16 (fun _ => 0))
        (rollHash (bufOf [255, 254, 253, 252, 251, 250, 249, 248, 247, 246, 245, 244,
          243, 242, 241, 240]) 15 16) ≠ 0 :=
  preprocessing_sets_factor_bits _ 16 _ 15 16 (by decide) (by decide) (by decide) (by decide)
    (by decide)

/-- Claim C11 fails on the code: for the pattern `ABCDEFGH` (length 8) and the text
`XXABCDEFG` (length 9) the searching phase run against the table with all bits set
verifies the window `ABCDEFG` at the end of the text and reads `y[9]`, one past the
text, and so does `search` itself: neither side of the claimed equality has a
defined value. -/
theorem superset_scan_reads_past_text :
    Access.text 9 ∈ searchLoopLog (fun _ => 4294967295)
        (bufOf [65, 66, 67, 68, 69, 70, 71, 72]) 8 (truncLen 8) (truncLen 8 - Q + 1)
        (bufOf [88, 88, 65, 66, 67, 68, 69, 70, 71]) 9 (9 - (truncLen 8 - 1)).toNat
        (truncLen 8 - 1, 0) ∧
      Access.text 9 ∈ searchLog (bufOf [65, 66, 67, 68, 69, 70, 71, 72]) 8
        (bufOf [88, 88, 65, 66, 67, 68, 69, 70, 71]) 9 (fun _ => 0) := by
  decide!

/-- Claim C12: bit addressing of the filter.  `TEST_BIT` and `SET_BIT` address the
word `(v >> 5) & 4095` and the bit `v & 31`, which are the quotient and remainder by
32 of `v mod 2^17`, so they depend only on `v mod 2^17`; after `SET_BIT(F, v)`,
`TEST_BIT(F, w)` is non-zero if and only if `w` is congruent to `v` modulo `2^17` or
`TEST_BIT(F, w)` was non-zero before; and the reduction of the accumulated hash to 32
bits changes no probe and no inserted bit: the 32-bit values `scanHash` and
`rollHash` address the same bit as the exact values `scanExact` and `rollExact`. -/
theorem bit_addressing (F : Table) (v w : Nat) :
    (MASK = 4095 ∧
      TEST_BIT F v = F ((v >>> 5) &&& 4095) &&& (1 <<< (v &&& 31)) ∧
      (∀ k, SET_BIT F v k =
        if k = (v >>> 5) &&& 4095 then F k ||| (1 <<< (v &&& 31)) else F k)) ∧
      ((v >>> 5) &&& 4095 = v % 2 ^ 17 / 32 ∧ v &&& 31 = v % 2 ^ 17 % 32) ∧
      (v % 2 ^ 17 = w % 2 ^ 17 → TEST_BIT F v = TEST_BIT F w ∧ SET_BIT F v = SET_BIT F w) ∧
      (TEST_BIT (SET_BIT F v) w ≠ 0 ↔ (w % 2 ^ 17 = v % 2 ^ 17 ∨ TEST_BIT F w ≠ 0)) ∧
      (TEST_BIT F (wrap32 v) = TEST_BIT F v ∧ SET_BIT F (wrap32 v) = SET_BIT F v) ∧
      (∀ (y : Buf) (j : Int) (t : Nat),
        TEST_BIT F (scanHash y j t) = TEST_BIT F (scanExact y j t)) ∧
      (∀ (x : Buf) (e : Int) (L : Nat),
        TEST_BIT F (rollHash x e L) = TEST_BIT F (rollExact x e L) ∧
        SET_BIT F (rollHash x e L) = SET_BIT F (rollExact x e L)) := by
  refine ⟨⟨rfl, rfl, fun k => rfl⟩, ⟨?_, ?_⟩, fun h => ⟨TEST_BIT_congr F h, SET_BIT_congr F h⟩,
    TEST_BIT_SET_BIT_iff F v w, ⟨TEST_BIT_congr F (wrap32_mod v), SET_BIT_congr F (wrap32_mod v)⟩,
    fun y j t => TEST_BIT_congr F (mod17_of_mod32 (scanHash_mod_exact y j t)),
    fun x e L => ⟨TEST_BIT_congr F (mod17_of_mod32 (rollHash_mod_exact x e L)),
      SET_BIT_congr F (mod17_of_mod32 (rollHash_mod_exact x e L))⟩⟩
  · have := slot_eq v
    have hM : MASK = 4095 := rfl
    rw [hM] at this
    rw [this]
    omega
  · have := offset_eq v
    rw [this]
    omega

/-- Claim C12 at two values that differ by `2^17`: after `SET_BIT(F, 5)` the probe of
`131077` is non-zero, on the empty table. -/
theorem bit_addressing_witness :
    TEST_BIT (SET_BIT (fun _ => 0) 5) 131077 ≠ 0 :=
  (bit_addressing (fun _ => 0) 5 131077).2.2.2.1.2 (Or.inl (by decide))

/-- Claim C13 fails on the code: for the pattern `ABCDEFGHIJKLMN` (`m = 14`,
`mq = 8`) and a text that starts with `XXXXXXXABCDEFG`, the window with right edge
`13` passes the filter with its rightmost Q-gram and fails with the second one, and
the next window has right edge `14`, not `13 + mq = 21`. -/
theorem miss_jump_counterexample :
    (scanLoop (preprocessing (bufOf [65, 66, 67, 68, 69, 70, 71, 72, 73, 74, 75, 76, 77, 78])
          (truncLen 14) (fun _ => 0))
        (bufOf [88, 88, 88, 88, 88, 88, 88, 65, 66, 67, 68, 69, 70, 71, 88, 88, 88, 88, 88,
          88, 88])
        (13 - truncLen 14 + Q) (13 - (13 - truncLen 14 + Q)).toNat 13
        (HASH (bufOf [88, 88, 88, 88, 88, 88, 88, 65, 66, 67, 68, 69, 70, 71, 88, 88, 88, 88,
          88, 88, 88]) 13)).2.2 = 0 ∧
      (searchStep (preprocessing (bufOf [65, 66, 67, 68, 69, 70, 71, 72, 73, 74, 75, 76, 77, 78])
          (truncLen 14) (fun _ => 0))
        (bufOf [65, 66, 67, 68, 69, 70, 71, 72, 73, 74, 75, 76, 77, 78]) 14 (truncLen 14)
        (truncLen 14 - Q + 1)
        (bufOf [88, 88, 88, 88, 88, 88, 88, 65, 66, 67, 68, 69, 70, 71, 88, 88, 88, 88, 88,
          88, 88]) 21 (13, 0)).1 = 14 ∧
      (14 : Int) ≠ 13 + (truncLen 14 - Q + 1) := by
  decide!

/-- Claim C13 as amended: whenever a filter probe fails for the window with right
edge `j0`, after `t` retreats of the scan (the probes of the first `t` Q-gram
suffixes having passed, `7t ≤ m - 7`), the right edge of the next window is
`j0 - 7t + mq` and the count is unchanged; it is `j0 + mq` when the probe of the
rightmost Q-gram fails. -/
theorem miss_jump (F : Table) (x : Buf) (plen : Int) (y : Buf) (n : Int) (h : 7 ≤ plen)
    (j0 count : Int)
    (hmiss : (scanLoop F y (j0 - truncLen plen + Q) (j0 - (j0 - truncLen plen + Q)).toNat j0
      (HASH y j0)).2.2 = 0) :
    (∃ t : Nat, 7 * (t : Int) ≤ truncLen plen - 7 ∧
        (∀ u : Nat, u < t → TEST_BIT F (scanHash y j0 u) ≠ 0) ∧
        TEST_BIT F (scanHash y j0 t) = 0 ∧
        (scanLoop F y (j0 - truncLen plen + Q) (j0 - (j0 - truncLen plen + Q)).toNat j0
          (HASH y j0)).1 = j0 - 7 * (t : Int) ∧
        searchStep F x plen (truncLen plen) (truncLen plen - Q + 1) y n (j0, count)
          = (j0 - 7 * (t : Int) + (truncLen plen - Q + 1), count)) ∧
      (TEST_BIT F (HASH y j0) = 0 →
        searchStep F x plen (truncLen plen) (truncLen plen - Q + 1) y n (j0, count)
          = (j0 + (truncLen plen - Q + 1), count)) := by
  obtain ⟨c, hc, -, -⟩ := truncLen_facts plen h
  obtain ⟨t1, ht1, hres, -, hhits⟩ := scanLoop_window F y (truncLen plen) j0 c hc
  rw [hres] at hmiss
  simp only at hmiss
  have hstep : searchStep F x plen (truncLen plen) (truncLen plen - Q + 1) y n (j0, count)
      = (j0 - 7 * (t1 : Int) + (truncLen plen - Q + 1), count) := by
    simp only [searchStep]
    rw [hres]
    simp only [hmiss]
    simp
  refine ⟨⟨t1, by omega, hhits, hmiss, by rw [hres], hstep⟩, fun h0 => ?_⟩
  have ht0 : t1 = 0 := by
    by_contra hne
    exact hhits 0 (by omega) h0
  rw [hstep, ht0]
  simp

/-- Claim C13 as amended, on the window of the counterexample: the next right edge
is `13 - 7 * 1 + mq`. -/
theorem miss_jump_witness :
    ∃ t : Nat, 7 * (t : Int) ≤ truncLen 14 - 7 ∧
      searchStep (preprocessing (bufOf [65, 66, 67, 68, 69, 70, 71, 72, 73, 74, 75, 76, 77, 78])
          (truncLen 14) (fun _ => 0))
        (bufOf [65, 66, 67, 68, 69, 70, 71, 72, 73, 74, 75, 76, 77, 78]) 14 (truncLen 14)
        (truncLen 14 - Q + 1)
        (bufOf [88, 88, 88, 88, 88, 88, 88, 65, 66, 67, 68, 69, 70, 71, 88, 88, 88, 88, 88,
          88, 88]) 21 (13, 0)
        = (13 - 7 * (t : Int) + (truncLen 14 - Q + 1), 0) := by
  obtain ⟨t, h1, -, -, -, h5⟩ :=
    (miss_jump (preprocessing (bufOf [65, 66, 67, 68, 69, 70, 71, 72, 73, 74, 75, 76, 77, 78])
        (truncLen 14) (fun _ => 0))
      (bufOf [65, 66, 67, 68, 69, 70, 71, 72, 73, 74, 75, 76, 77, 78]) 14
      (bufOf [88, 88, 88, 88, 88, 88, 88, 65, 66, 67, 68, 69, 70, 71, 88, 88, 88, 88, 88,
        88, 88]) 21 (by decide) 13 0 (by decide!)).1
  exact ⟨t, h1, h5⟩

/-- Claim C14 fails on the code: after `preprocessing` of the pattern `ABCDEFG`
(`m = 7`) the bits of the factors `A` and `ABC`, which end before position 6, are not
set. -/
theorem short_factor_not_set :
    TEST_BIT (preprocessing (bufOf [65, 66, 67, 68, 69, 70, 71]) 7 (fun _ => 0))
        (rollHash (bufOf [65, 66, 67, 68, 69, 70, 71]) 0 1) = 0 ∧
      TEST_BIT (preprocessing (bufOf [65, 66, 67, 68, 69, 70, 71]) 7 (fun _ => 0))
        (rollHash (bufOf [65, 66, 67, 68, 69, 70, 71]) 2 3) = 0 := by
  decide!

/-- Claim C14 as amended: after `preprocessing(x, m, F)`, for every factor
`x[s .. s+L)` of `x[0 .. m)` whose length `L` is between 1 and 16 and which ends at
a position `s + L - 1 ≥ 6` (every factor of length 7 to 16 does), the bit addressed
by the rolling hash of the factor is set. -/
theorem factor_bits_set (x : Buf) (m : Int) (F : Table) (s : Int) (L : Nat)
    (hs : 0 ≤ s) (hL1 : 1 ≤ L) (hL16 : L ≤ 16) (hm : s + (L : Int) ≤ m)
    (he : 7 ≤ s + (L : Int)) :
    TEST_BIT (preprocessing x m F) (rollHash x (s + (L : Int) - 1) L) ≠ 0 :=
  preprocessing_sets x m F (s + (L : Int) - 1) L (by omega) (by omega) hL1 hL16 (by omega)

/-- Claim C14 as amended, on the pattern `ABCDEFGH`: the factor `BCDEFGH` is in the
table. -/
theorem factor_bits_set_witness :
    TEST_BIT (preprocessing (bufOf [65, 66, 67, 68, 69, 70, 71, 72]) 8 (fun _ => 0))
      (rollHash (bufOf [65, 66, 67, 68, 69, 70, 71, 72]) (1 + ((7 : Nat) : Int) - 1) 7) ≠ 0 :=
  factor_bits_set _ 8 _ 1 7 (by decide) (by decide) (by decide) (by decide) (by decide)

/-- Claim C15: the scanner's Q-gram hash agrees with the builder's rolling hash.
`HASH(y, j)` is the value of the recurrence `v = (v << 2) + y[k]` over
`k = j, ..., j - 6`, in exact and in 32-bit arithmetic alike (seven bytes do not
overflow), and `(HASH(y, j) << 14) + HASH(y, j - 7)` is the value of the recurrence
over `k = j, ..., j - 13`, in exact arithmetic and, both sides reduced, in 32-bit
arithmetic. -/
theorem HASH_agrees_with_rolling (y : Buf) (j : Int) :
    HASH y j = rollExact y j 7 ∧ HASH y j = rollHash y j 7 ∧
      (HASH y j <<< 14) + HASH y (j - 7) = rollExact y j 14 ∧
      wrap32 ((HASH y j <<< 14) + HASH y (j - 7)) = rollHash y j 14 := by
  have h7 : HASH y j = rollExact y j 7 := by
    rw [HASH_eq_factorHash, rollExact_eq_factorHash]
    congr 1
    push_cast
    ring
  have h14 : (HASH y j <<< 14) + HASH y (j - 7) = rollExact y j 14 := by
    rw [rollExact_eq_factorHash, show (14 : Nat) = 7 + 7 from rfl, factorHash_add,
      HASH_eq_factorHash, HASH_eq_factorHash, Nat.shiftLeft_eq]
    have e1 : j - ((7 + 7 : Nat) : Int) + 1 = j - 7 - 6 := by push_cast; ring
    have e2 : j - 7 - 6 + ((7 : Nat) : Int) = j - 6 := by push_cast; ring
    rw [e1, e2]
    have h4 : (4 : Nat) ^ 7 = 2 ^ 14 := by norm_num
    rw [h4]
    ring
  refine ⟨h7, ?_, h14, ?_⟩
  · have hb := factorHash_bound y (j - 7 + 1) 7
    have hlt := rollHash_lt y j 7
    have hm := rollHash_mod_exact y j 7
    rw [h7]
    rw [rollExact_eq_factorHash] at hm ⊢
    push_cast at hm ⊢
    norm_num at hb
    omega
  · have hlt := rollHash_lt y j 14
    have hm := rollHash_mod_exact y j 14
    rw [h14, wrap32]
    omega

/-- Claim C16 fails on the code: on the same input, a pattern of 14 bytes `A` and a
text of `n = 2147483647` zero bytes, the outer loop comes to its top with
`j = -2147483643` after 268435455 passes (the addition `j += mq` has overflowed);
`j < n` holds there, so the body runs and evaluates `HASH(y, j)` with `j < m - 1` and
`j < 6`, reading the text at negative indices. -/
theorem scan_index_overflows :
    (∀ fuel : Nat,
        searchLoop32
            (preprocessing (bufOf [65, 65, 65, 65, 65, 65, 65, 65, 65, 65, 65, 65, 65, 65])
              (truncLen 14) (fun _ => 0))
            (bufOf [65, 65, 65, 65, 65, 65, 65, 65, 65, 65, 65, 65, 65, 65]) 14 (truncLen 14)
            (truncLen 14 - Q + 1) (fun _ => 0) 2147483647 (268435455 + fuel)
            (truncLen 14 - 1, 0)
          = searchLoop32
            (preprocessing (bufOf [65, 65, 65, 65, 65, 65, 65, 65, 65, 65, 65, 65, 65, 65])
              (truncLen 14) (fun _ => 0))
            (bufOf [65, 65, 65, 65, 65, 65, 65, 65, 65, 65, 65, 65, 65, 65]) 14 (truncLen 14)
            (truncLen 14 - Q + 1) (fun _ => 0) 2147483647 fuel (-2147483643, 0)) ∧
      (-2147483643 : Int) < 2147483647 ∧ ¬ (truncLen 14 - 1 ≤ (-2147483643 : Int)) ∧
      ¬ ((6 : Int) ≤ -2147483643) := by
  have hF : TEST_BIT
      (preprocessing (bufOf [65, 65, 65, 65, 65, 65, 65, 65, 65, 65, 65, 65, 65, 65])
        (truncLen 14) (fun _ => 0)) 0 = 0 := by
    decide!
  have hm : truncLen 14 = 14 := by decide
  have hmq : truncLen 14 - Q + 1 = 8 := by decide
  rw [hmq]
  refine ⟨fun fuel => ?_, by decide, by rw [hm]; decide, by decide⟩
  have h := searchLoop32_zero_text _
    (bufOf [65, 65, 65, 65, 65, 65, 65, 65, 65, 65, 65, 65, 65, 65]) 14 (truncLen 14) 8
    2147483647 hF (by decide) 0 268435454 (1 + fuel) (truncLen 14 - 1) (by rw [hm]; decide)
    (by rw [hm]; decide) (by rw [hm]; decide)
  rw [show 268435455 + fuel = 268435454 + (1 + fuel) by omega, h,
    show 1 + fuel = fuel + 1 by omega, searchLoop32,
    if_pos (by simp only; rw [hm]; decide), searchStep32_zero_text _ _ _ _ _ _ _ _ hF]
  have e : wrapInt (truncLen 14 - 1 + 8 * ((268435454 : Nat) : Int) + 8) = -2147483643 := by
    decide
  rw [e]

/-- Claim C17: the filter holds nothing but factor hashes.  After
`preprocessing(x, m, F)` on any initial table, every bit set in a word of the table
is one of the 32 bits of the word and its address `32 k + b` is `v mod 2^17` for the
rolling hash `v` of a substring `x[e-L+1 .. e]` with `6 ≤ e ≤ m - 1`,
`1 ≤ L ≤ min(m, 16)` and `e - L + 1 ≥ 0`; at most `(m - 6) * 16` bits are set; and
for `m < 7` the table is left all zero. -/
theorem filter_only_factor_hashes (x : Buf) (m : Int) (F : Table) :
    (∀ k b : Nat, k < ASIZE → (preprocessing x m F k).testBit b = true →
        b < 32 ∧ ∃ (e : Int) (L : Nat), 6 ≤ e ∧ e ≤ m - 1 ∧ 1 ≤ L ∧ (L : Int) ≤ min m 16 ∧
          0 ≤ e - (L : Int) + 1 ∧ rollHash x e L % 2 ^ 17 = 32 * k + b) ∧
      bitCount (preprocessing x m F) ≤ ((m - 6) * 16).toNat ∧
      (m < 7 → ∀ k, k < ASIZE → preprocessing x m F k = 0) := by
  refine ⟨fun k b hk hb => ?_, ?_, fun hm k hk => ?_⟩
  · obtain ⟨v, hv, h1, h2⟩ := (preprocessing_testBit_iff x m F k b hk).1 hb
    obtain ⟨e, L, h3, h4, h5, h6, h7, rfl⟩ := preprocessingValues_mem x m v hv
    exact ⟨by omega, e, L, h3, h4, h5, h6, by omega, by omega⟩
  · exact le_trans (bitCount_preprocessing_le x m F) (preprocessingValues_length x m)
  · have hnil : preprocessingValues x m = [] := by
      have := preprocessingValues_length x m
      have h0 : ((m - 6) * 16).toNat = 0 := by omega
      rw [h0] at this
      exact List.length_eq_zero.1 (Nat.le_zero.1 this)
    rw [preprocessing_eq_foldl, hnil, List.foldl_nil, clearLoop_zero F k hk]

/-- Claim C17 for `m = 6`: the table is left all zero, whatever it held before. -/
theorem filter_only_factor_hashes_witness :
    preprocessing (bufOf [65, 66, 67, 68, 69, 70]) 6 (fun _ => 4294967295) 37 = 0 :=
  (filter_only_factor_hashes _ 6 _).2.2 (by decide) 37 (by decide)

/-- Claim C18 fails on the code: `preprocessing` of the pattern `GCAGAGA` (`m = 7`)
inserts the values `90359` and `361507`, which are greater than `65536 = 256 * 256`,
the bound that the header comment of the source gives; and for the pattern
`ACGTACGTACGTACGT` (`m = 16`) it inserts the 32-bit pattern `2910682471`, which is
`2^31` or more, a negative `int`: the accumulation `v = (v << 2) + x[j]` has
overflowed. -/
theorem hash_value_exceeds_bound :
    90359 ∈ preprocessingValues (bufOf [71, 67, 65, 71, 65, 71, 65]) 7 ∧
      361507 ∈ preprocessingValues (bufOf [71, 67, 65, 71, 65, 71, 65]) 7 ∧
      (¬ ∀ v ∈ preprocessingValues (bufOf [71, 67, 65, 71, 65, 71, 65]) 7, v ≤ 65536) ∧
      2910682471 ∈ preprocessingValues
        (bufOf [65, 67, 71, 84, 65, 67, 71, 84, 65, 67, 71, 84, 65, 67, 71, 84]) 16 ∧
      2 ^ 31 ≤ 2910682471 := by
  decide

end Owfr7
